import Mathlib

/-!
Verification of the path-rewriting core of `replace_heads_of_audio_paths_in_m3u.py`.

The embedding works over `List Char` strings.  Python's string operations
(`splitlines`, `strip`, `replace`, substring search) are modelled as total
functions on `List Char`; `pathlib.PurePosixPath` is modelled by a parsed
path structure `PPath`; the filesystem is an existence predicate
`PPath → Bool`; Python's `unicodedata` is modelled by a finite faithful
fragment of the real Unicode tables (see `combining` / `composePair`).
-/

set_option maxHeartbeats 1000000

deriving instance DecidableEq for Except

namespace M3U

/-- Characters Python `str.splitlines` treats as line boundaries
(`\n`, `\r`, `\v`, `\f`, FS, GS, RS, NEL, LINE SEP, PARA SEP); the pair
`\r\n` is a single boundary, handled in `splitKeepAux`. -/
def isLineBreak (c : Char) : Bool :=
  c == '\n' || c == '\r' || c == Char.ofNat 0x0b || c == Char.ofNat 0x0c ||
  c == Char.ofNat 0x1c || c == Char.ofNat 0x1d || c == Char.ofNat 0x1e ||
  c == Char.ofNat 0x85 || c == Char.ofNat 0x2028 || c == Char.ofNat 0x2029

/-- Helper for `splitKeep`: `acc` is the reversed current line body; a
`\r` immediately followed by `\n` forms a single two-character
terminator. -/
def splitKeepAux : List Char → List Char → List (List Char × List Char)
  | acc, [] => if acc.isEmpty then [] else [(acc.reverse, [])]
  | acc, c :: t =>
      if isLineBreak c then
        if c == '\r' then
          match t with
          | [] => [(acc.reverse, ['\r'])]
          | d :: t2 =>
              if d == '\n' then
                (acc.reverse, ['\r', '\n']) :: splitKeepAux [] t2
              else (acc.reverse, ['\r']) :: splitKeepAux [] (d :: t2)
        else (acc.reverse, [c]) :: splitKeepAux [] t
      else splitKeepAux (c :: acc) t

/-- Python `str.splitlines(keepends=True)`, as (body, terminator) pairs:
a trailing segment with no terminator is kept iff non-empty, matching
Python, which is why `""`.splitlines() is `[]`. -/
def splitKeep (s : List Char) : List (List Char × List Char) :=
  splitKeepAux [] s

/-- Python `str.splitlines()`: the line bodies only. -/
def pySplitlines (s : List Char) : List (List Char) :=
  (splitKeep s).map Prod.fst

/-- Characters Python `str.strip()` removes: the Unicode whitespace
characters recognised by `str.isspace`. -/
def isPyWhitespace (c : Char) : Bool :=
  let n := c.toNat
  (0x09 ≤ n && n ≤ 0x0d) || n == 0x20 || (0x1c ≤ n && n ≤ 0x1f) ||
  n == 0x85 || n == 0xa0 || n == 0x1680 || (0x2000 ≤ n && n ≤ 0x200a) ||
  n == 0x2028 || n == 0x2029 || n == 0x202f || n == 0x205f || n == 0x3000

/-- Python `str.strip()` with no argument: drop leading and trailing
whitespace. -/
def pyStrip (s : List Char) : List Char :=
  ((s.dropWhile isPyWhitespace).reverse.dropWhile isPyWhitespace).reverse

/-- Substring test: does `pat` occur contiguously inside `s`?  Models
Python's `in` on strings (used only with non-empty `pat`). -/
def occursIn (pat : List Char) : List Char → Bool
  | [] => pat.isPrefixOf []
  | c :: t => pat.isPrefixOf (c :: t) || occursIn pat t

/-- Recursion worker for `pyReplace`; `fuel` bounds the remaining input
length so the recursion is structural (each step strictly shortens the
scanned suffix, so any `fuel ≥ s.length` yields the same value). -/
def pyReplaceFuel : Nat → List Char → List Char → List Char → List Char
  | 0, s, _, _ => s
  | fuel + 1, s, old, new =>
      if old = [] then s
      else if old.isPrefixOf s then
        new ++ pyReplaceFuel fuel (s.drop old.length) old new
      else
        match s with
        | [] => []
        | c :: t => c :: pyReplaceFuel fuel t old new

/-- Python `str.replace(old, new)`: replace every non-overlapping
occurrence of `old`, scanning left to right.  Python's behaviour for an
empty `old` (inserting `new` between characters) never arises in this
program — every pattern passed is a non-empty path line — so the model
returns `s` unchanged in that case. -/
def pyReplace (s old new : List Char) : List Char :=
  pyReplaceFuel s.length s old new

/-- U+0301 COMBINING ACUTE ACCENT. -/
def acuteChar : Char := Char.ofNat 0x301

/-- U+00E1 LATIN SMALL LETTER A WITH ACUTE. -/
def aAcute : Char := Char.ofNat 0xe1

/-- U+00E9 LATIN SMALL LETTER E WITH ACUTE. -/
def eAcute : Char := Char.ofNat 0xe9

/-- Modelled from the spec: Python `unicodedata.combining(c) != 0`
(membership in the class-wide table `Diacritics.__ALL_COMBINING_CHARS`),
restricted to a finite faithful fragment of the Unicode tables in which
U+0301 is the only character with a non-zero canonical combining class. -/
def combining (c : Char) : Bool := c == acuteChar

/-- Modelled from the spec: the canonical composition table behind
`unicodedata.normalize('NFC', ·)`, restricted to the same fragment:
`a` + U+0301 → `á` and `e` + U+0301 → `é` are the only primary
composites.  Composition output is always a starter (combining class 0),
as in real Unicode. -/
def composePair (p c : Char) : Option Char :=
  if c == acuteChar then
    if p == 'a' then some aAcute
    else if p == 'e' then some eAcute
    else none
  else none

/-- Canonical-composition pass of `unicodedata.normalize('NFC', ·)` over
the fragment: fold over the string, composing the most recent character
with the next one when the table allows it.  With a single combining
class in the fragment no canonical reordering step is needed.
`acc` holds the output so far, reversed. -/
def nfcAux : List Char → List Char → List Char
  | acc, [] => acc.reverse
  | [], c :: t => nfcAux [c] t
  | p :: ps, c :: t =>
      match composePair p c with
      | some w => nfcAux (w :: ps) t
      | none => nfcAux (c :: p :: ps) t

/-- Modelled from the spec: `unicodedata.normalize('NFC', text)` on the
fragment. -/
def nfc (s : List Char) : List Char := nfcAux [] s

/-- Helper for `Diacritics.replace_combining_chars_to_precomposed`:
`acc` is the reversed list of accumulated output elements
(`new_text_as_chars` in the source, most recent element first). -/
def rccpAux : List (List Char) → List Char → List (List Char)
  | acc, [] => acc
  | acc, c :: t =>
      if combining c && !acc.isEmpty then
        match acc with
        | e :: rest => rccpAux (nfc (e ++ [c]) :: rest) t
        | [] => rccpAux ([c] :: acc) t
      else rccpAux ([c] :: acc) t

/-- `Diacritics.replace_combining_chars_to_precomposed`: scan the text;
a combining character with a non-empty accumulator pops the previous
element and replaces it by the NFC normalization of element + mark. -/
def replace_combining_chars_to_precomposed (text : List Char) : List Char :=
  ((rccpAux [] text).reverse).flatten

/-- Split a character list on a separator character (used by path
parsing; every separator produces a boundary, so `"a//b"` yields
`["a", "", "b"]`). -/
def splitOnChar (sep : Char) : List Char → List (List Char)
  | [] => [[]]
  | c :: t =>
      let r := splitOnChar sep t
      if c == sep then [] :: r
      else
        match r with
        | [] => [[c]]
        | h :: t2 => (c :: h) :: t2

/-- A parsed `pathlib.PurePosixPath`: `root` is 0 for a relative path,
1 for a single leading `/`, 2 for the POSIX-special exactly-two leading
slashes; `parts` are the non-empty, non-`"."` components. -/
structure PPath where
  root : Nat
  parts : List (List Char)
deriving DecidableEq

/-- Number of leading `/` characters of a raw path string. -/
def leadSlashCount : List Char → Nat
  | '/' :: t => leadSlashCount t + 1
  | _ => 0

/-- Root classification used by `pathlib`: no leading slash → relative;
exactly two → the preserved `//` root; otherwise a single `/`. -/
def rootOfCount (n : Nat) : Nat :=
  if n = 0 then 0 else if n = 2 then 2 else 1

/-- `pathlib.PurePosixPath(s)`: parse a raw string, dropping empty and
`"."` components. -/
def parsePath (s : List Char) : PPath :=
  ⟨rootOfCount (leadSlashCount s),
   (splitOnChar '/' s).filter (fun p => !(p == []) && !(p == ['.']))⟩

/-- Join path components with `/` separators. -/
def joinParts : List (List Char) → List Char
  | [] => []
  | [p] => p
  | p :: q :: t => p ++ '/' :: joinParts (q :: t)

/-- Textual form of a root marker. -/
def rootText : Nat → List Char
  | 0 => []
  | 2 => ['/', '/']
  | _ => ['/']

/-- `str(path)` for a `PurePosixPath`: the empty relative path renders
as `"."`. -/
def pathStr (p : PPath) : List Char :=
  if p.root == 0 && p.parts.isEmpty then ['.']
  else rootText p.root ++ joinParts p.parts

/-- `p.relative_to(base)`: succeeds iff the roots agree and `base`'s
components are a leading segment of `p`'s, yielding the relative tail. -/
def relative_to (p base : PPath) : Option PPath :=
  if p.root == base.root && base.parts.isPrefixOf p.parts then
    some ⟨0, p.parts.drop base.parts.length⟩
  else none

/-- `base / rel` for paths: an anchored right operand replaces the left
one, otherwise the components are appended (the program only ever joins
with relative right operands produced by `relative_to`). -/
def joinPath (base rel : PPath) : PPath :=
  if rel.root == 0 then ⟨base.root, base.parts ++ rel.parts⟩ else rel

/-- The exceptions `AudioPath.search_existing_path` can raise:
`ValueError` when no before-root is a prefix, `FileNotFoundError` when no
candidate exists, `FileExistsError` when several distinct candidates
exist (carrying, as the source's message does, every existing
candidate). -/
inductive SearchErr where
  | valueError (p : PPath)
  | fileNotFound (p : PPath)
  | fileExists (p : PPath) (existing : List PPath)
deriving DecidableEq

/-- `AudioPath`: the source class defines no `__eq__`/`__hash__`, so
Python compares instances by object identity.  The model carries an
identity token `pid` (the parse loop assigns distinct tokens); `path` is
the held `pathlib` path. -/
structure AudioPath where
  pid : Nat
  path : PPath
deriving DecidableEq

instance : Inhabited AudioPath := ⟨⟨0, ⟨0, []⟩⟩⟩

/-- `AudioPath.__str__`. -/
def strAudio (a : AudioPath) : List Char := pathStr a.path

/-- Python `==` on `AudioPath` instances: default object identity. -/
def pyEqAudio (a b : AudioPath) : Bool := a.pid == b.pid

/-- Python `in` on a sequence of `AudioPath`s (identity comparison). -/
def pyMemAudio (a : AudioPath) (l : List AudioPath) : Bool :=
  l.any (pyEqAudio a)

/-- `AudioPath.__trim_relative_path_from_base_path`: try each candidate
base in order, return the first successful `relative_to`, raise
`ValueError` when none matches. -/
def trim_relative_path_from_base_path (p : PPath) :
    List PPath → Except SearchErr PPath
  | [] => .error (.valueError p)
  | b :: rest =>
      match relative_to p b with
      | some r => .ok r
      | none => trim_relative_path_from_base_path p rest

/-- `AudioPath.__pick_existing_path`: collect the existing candidates
into a set (`List.dedup` models the `set()` of structurally-compared
`Path`s), then fail on zero or on more than one distinct existing path,
the latter carrying all of them. -/
def pick_existing_path (selfP : PPath) (cands : List PPath)
    (fs : PPath → Bool) : Except SearchErr PPath :=
  match (cands.filter fs).dedup with
  | [] => .error (.fileNotFound selfP)
  | [e] => .ok e
  | l => .error (.fileExists selfP l)

/-- `AudioPath.search_existing_path`: no-op fast path when the path
exists, otherwise strip a before-root, re-root the tail under each
after-root and pick the unique existing candidate.  The source wraps the
found path in a fresh `AudioPath` whose identity is never compared, so
the model reuses the token. -/
def search_existing_path (a : AudioPath) (bPre bPost : List PPath)
    (fs : PPath → Bool) : Except SearchErr AudioPath :=
  if fs a.path then .ok a
  else
    match trim_relative_path_from_base_path a.path bPre with
    | .error e => .error e
    | .ok rel =>
        match pick_existing_path a.path
            (bPost.map (fun b => joinPath b rel)) fs with
        | .error e => .error e
        | .ok p => .ok ⟨a.pid, p⟩

/-- `line[:1] not in ('', '#')`: the source's criterion selecting path
lines. -/
def isPathLine (l : List Char) : Bool :=
  !(l.take 1 == ([] : List Char)) && !(l.take 1 == ['#'])

/-- Parse loop of `M3uFile.__private_constructor`: one `AudioPath` per
path line, built from the stripped, Unicode-normalized line text; the
index `i` is the object-identity token (each Python `AudioPath(...)`
call creates a distinct object). -/
def buildAudioPaths : Nat → List (List Char) → List AudioPath
  | _, [] => []
  | i, l :: t =>
      ⟨i, parsePath (replace_combining_chars_to_precomposed (pyStrip l))⟩
        :: buildAudioPaths (i + 1) t

/-- `M3uFile`: full content, retained raw path lines, parsed references. -/
structure M3uFile where
  content : List Char
  path_lines : List (List Char)
  audio_paths : List AudioPath
deriving DecidableEq

/-- `M3uFile.__private_constructor`. -/
def private_constructor (content : List Char) : M3uFile :=
  let lines := pySplitlines content
  let path_lines := lines.filter isPathLine
  ⟨content, path_lines, buildAudioPaths 0 path_lines⟩

/-- The `ValueError` of `M3uFile.__replace_audio_paths`, carrying the
set of replacement keys absent from the document. -/
inductive ReplaceErr where
  | unknownPaths (missing : List AudioPath)
deriving DecidableEq

/-- Errors of `M3uFile.replace_heads_of_audio_paths`: the batch
`FileNotFoundError` carries the accumulated failure set (reported
per-path on stderr in the source); `rep` propagates the inner
replacement error. -/
inductive BatchErr where
  | unresolvable (fails : List AudioPath)
  | rep (e : ReplaceErr)
deriving DecidableEq

/-- Insertion into a Python `set` of `AudioPath`s (identity-keyed):
append unless an identical object is already present. -/
def addIdSet (l : List AudioPath) (a : AudioPath) : List AudioPath :=
  if pyMemAudio a l then l else l ++ [a]

/-- Assignment into a Python `dict` keyed by `AudioPath` identity:
overwrite the value of an identical key, else append the pair. -/
def insertIdDict (d : List (AudioPath × AudioPath)) (k v : AudioPath) :
    List (AudioPath × AudioPath) :=
  if d.any (fun kv => pyEqAudio kv.1 k) then
    d.map (fun kv => if pyEqAudio kv.1 k then (kv.1, v) else kv)
  else d ++ [(k, v)]

/-- `self.__audio_paths.index(original)` (first identity match). -/
def indexOfAudio (a : AudioPath) (l : List AudioPath) : Nat :=
  l.findIdx (pyEqAudio a)

/-- The raw line text `self.__path_lines[self.__audio_paths.index(o)]`
targeted when replacing reference `o`. -/
def targetLine (m : M3uFile) (o : AudioPath) : List Char :=
  m.path_lines.getD (indexOfAudio o m.audio_paths) []

/-- Loop body of `M3uFile.__replace_audio_paths`: accumulate the
rewritten content and the set of keys absent from the document. -/
def rapLoop (m : M3uFile) :
    List (AudioPath × AudioPath) → List Char → List AudioPath →
    List Char × List AudioPath
  | [], content, missing => (content, missing)
  | (o, e) :: rest, content, missing =>
      if pyMemAudio o m.audio_paths then
        rapLoop m rest (pyReplace content (targetLine m o) (strAudio e))
          missing
      else rapLoop m rest content (addIdSet missing o)

/-- `M3uFile.__replace_audio_paths`: run the loop over all supplied
pairs, then raise listing every missing key, or build the new document
from the rewritten content. -/
def replace_audio_paths (m : M3uFile)
    (d : List (AudioPath × AudioPath)) : Except ReplaceErr M3uFile :=
  if (rapLoop m d m.content []).2.isEmpty then
    .ok (private_constructor (rapLoop m d m.content []).1)
  else .error (.unknownPaths (rapLoop m d m.content []).2)

/-- Resolution loop of `M3uFile.replace_heads_of_audio_paths`: build the
replacement dict from the successful resolutions and the failure set
from the raising ones, attempting every reference. -/
def rhLoop (bPre bPost : List PPath) (fs : PPath → Bool) :
    List AudioPath → List (AudioPath × AudioPath) → List AudioPath →
    List (AudioPath × AudioPath) × List AudioPath
  | [], d, fails => (d, fails)
  | a :: rest, d, fails =>
      match search_existing_path a bPre bPost fs with
      | .ok ex => rhLoop bPre bPost fs rest (insertIdDict d a ex) fails
      | .error _ => rhLoop bPre bPost fs rest d (addIdSet fails a)

/-- `M3uFile.replace_heads_of_audio_paths`: resolve every parsed
reference, raise the batch error when any failed, otherwise apply the
replacement dict. -/
def replace_heads_of_audio_paths (m : M3uFile) (bPre bPost : List PPath)
    (fs : PPath → Bool) : Except BatchErr M3uFile :=
  if (rhLoop bPre bPost fs m.audio_paths [] []).2.isEmpty then
    match replace_audio_paths m
        (rhLoop bPre bPost fs m.audio_paths [] []).1 with
    | .ok m2 => .ok m2
    | .error e => .error (.rep e)
  else .error (.unresolvable (rhLoop bPre bPost fs m.audio_paths [] []).2)

/-- Did `search_existing_path` raise for this reference?  (The loop's
`except Exception` test.) -/
def searchFails (bPre bPost : List PPath) (fs : PPath → Bool)
    (a : AudioPath) : Bool :=
  match search_existing_path a bPre bPost fs with
  | .ok _ => false
  | .error _ => true

/-! ### Lemmas about `pick_existing_path` -/

theorem pick_eq_ambiguous (selfP : PPath) (cands : List PPath)
    (fs : PPath → Bool) (h : 2 ≤ ((cands.filter fs).dedup).length) :
    pick_existing_path selfP cands fs =
      .error (.fileExists selfP ((cands.filter fs).dedup)) := by
  unfold pick_existing_path
  match hl : (cands.filter fs).dedup with
  | [] => rw [hl] at h; simp at h
  | [e] => rw [hl] at h; simp at h
  | x :: y :: t => rfl

theorem pick_eq_ok (selfP : PPath) (cands : List PPath)
    (fs : PPath → Bool) (v : PPath)
    (h : (cands.filter fs).dedup = [v]) :
    pick_existing_path selfP cands fs = .ok v := by
  unfold pick_existing_path
  rw [h]

/-- Claim C4 counterexample input: two references built from the same
normalized path string. -/
def c4a : AudioPath := ⟨0, parsePath (("/p" : String).data)⟩

/-- Second reference of the C4 counterexample (a distinct object). -/
def c4b : AudioPath := ⟨1, parsePath (("/p" : String).data)⟩

/-- C4: the claim is false on the code: `AudioPath` defines no
`__eq__`/`__hash__`, so two references constructed from equal normalized
path strings are distinct objects, compare unequal, and fail membership
tests. -/
theorem c4_counterexample :
    strAudio c4a = strAudio c4b ∧ pyEqAudio c4a c4b = false ∧
      pyMemAudio c4a [c4b] = false := by
  decide

/-- C4 (amended): equality of `AudioPath` references is determined by
object identity, not by the normalized path value: two references
compare equal, and are interchangeable in membership tests over a
document's references, exactly when they are the same object. -/
theorem c4_amended (a b : AudioPath) (l : List AudioPath) :
    (pyEqAudio a b = true ↔ a.pid = b.pid) ∧
      (pyMemAudio a l = true ↔ ∃ b2 ∈ l, a.pid = b2.pid) := by
  constructor
  · simp [pyEqAudio]
  · simp [pyMemAudio, List.any_eq_true, pyEqAudio]

/-- C6: during resolution of a reference that does not exist on disk,
once a before-root has been stripped, if more than one distinct
re-rooted candidate exists on the filesystem the search fails with the
ambiguity error carrying the deduplicated existing-candidate set — which
contains every existing candidate — and never silently returns a path. -/
theorem c6_ambiguity (a : AudioPath) (bPre bPost : List PPath)
    (fs : PPath → Bool) (rel : PPath)
    (hne : fs a.path = false)
    (hrel : trim_relative_path_from_base_path a.path bPre = .ok rel)
    (hamb : 2 ≤ (((bPost.map (fun b => joinPath b rel)).filter fs).dedup).length) :
    search_existing_path a bPre bPost fs =
      .error (.fileExists a.path
        (((bPost.map (fun b => joinPath b rel)).filter fs).dedup)) ∧
    ∀ c ∈ bPost.map (fun b => joinPath b rel), fs c = true →
      c ∈ ((bPost.map (fun b => joinPath b rel)).filter fs).dedup := by
  constructor
  · unfold search_existing_path
    simp only [hne, Bool.false_eq_true, if_false, hrel]
    rw [pick_eq_ambiguous _ _ _ hamb]
  · intro c hc hfs
    rw [List.mem_dedup, List.mem_filter]
    exact ⟨hc, hfs⟩

/-- C6 witness input: the reference `/old/x`. -/
def c6a : AudioPath := ⟨0, parsePath (("/old/x" : String).data)⟩

/-- C6 witness before-root. -/
def c6pre : PPath := parsePath (("/old" : String).data)

/-- C6 witness after-roots `/n1` and `/n2`. -/
def c6post : List PPath :=
  [parsePath (("/n1" : String).data), parsePath (("/n2" : String).data)]

/-- C6 witness filesystem: both re-rooted candidates exist. -/
def c6fs (p : PPath) : Bool :=
  p == parsePath (("/n1/x" : String).data) ||
    p == parsePath (("/n2/x" : String).data)

/-- C6 witness: with two after-roots both holding the relative tail
`x`, resolution raises the ambiguity error naming both candidates. -/
theorem c6_witness :
    search_existing_path c6a [c6pre] c6post c6fs =
      .error (.fileExists c6a.path
        (((c6post.map (fun b => joinPath b (parsePath (("x" : String).data)))).filter c6fs).dedup)) :=
  (c6_ambiguity c6a [c6pre] c6post c6fs (parsePath (("x" : String).data))
    (by decide) (by decide) (by decide)).1

/-- C10: the candidate re-rooted paths are collected into a set before
the existence count is taken, so whenever the distinct existing
candidate values reduce to a single path — even when several after-root
entries produce it — resolution succeeds with that path instead of
raising an ambiguity error. -/
theorem c10_set_before_count (a : AudioPath) (bPre bPost : List PPath)
    (fs : PPath → Bool) (rel v : PPath)
    (hne : fs a.path = false)
    (hrel : trim_relative_path_from_base_path a.path bPre = .ok rel)
    (huniq : ((bPost.map (fun b => joinPath b rel)).filter fs).dedup = [v]) :
    search_existing_path a bPre bPost fs = .ok ⟨a.pid, v⟩ := by
  unfold search_existing_path
  simp only [hne, Bool.false_eq_true, if_false, hrel]
  rw [pick_eq_ok _ _ _ _ huniq]

/-- C10 witness after-roots: two entries denoting the same directory
(`/r` and `/r/` parse to the same path). -/
def c10post : List PPath :=
  [parsePath (("/r" : String).data), parsePath (("/r/" : String).data)]

/-- C10 witness filesystem: only `/r/x` exists. -/
def c10fs (p : PPath) : Bool := p == parsePath (("/r/x" : String).data)

/-- C10 witness reference. -/
def c10a : AudioPath := ⟨0, parsePath (("/old/x" : String).data)⟩

/-- C10 witness: both after-root entries yield the candidate `/r/x`;
although two candidate entries exist, resolution succeeds with `/r/x`
because ambiguity is counted over distinct candidate values. -/
theorem c10_witness :
    search_existing_path c10a [c6pre] c10post c10fs =
      .ok ⟨0, parsePath (("/r/x" : String).data)⟩ ∧
    ((c10post.map (fun b =>
        joinPath b (parsePath (("x" : String).data)))).filter c10fs).length = 2 :=
  ⟨c10_set_before_count c10a [c6pre] c10post c10fs
      (parsePath (("x" : String).data)) (parsePath (("/r/x" : String).data))
      (by decide) (by decide) (by decide),
    by decide⟩

/-! ### Normalization: the NFC fragment -/

/-- Adjacent pair that the composition table cannot merge. -/
def NoComp (x y : Char) : Prop := composePair x y = none

/-- A string in which no adjacent pair composes: the canonical form the
scan produces. -/
def NormP (s : List Char) : Prop := List.Chain' NoComp s

theorem composePair_starter {p c w : Char} (h : composePair p c = some w) :
    combining w = false := by
  unfold composePair at h
  split at h
  · split at h
    · have := Option.some.inj h; subst this; decide
    · split at h
      · have := Option.some.inj h; subst this; decide
      · exact Option.noConfusion h
  · exact Option.noConfusion h

theorem noComp_of_not_combining (p c : Char) (h : combining c = false) :
    NoComp p c := by
  unfold NoComp composePair
  unfold combining at h
  rw [h]
  simp

theorem noComp_of_combining_left (p c : Char) (h : combining p = true) :
    NoComp p c := by
  unfold combining at h
  have hp : p = acuteChar := beq_iff_eq.mp h
  subst hp
  unfold NoComp composePair
  split
  · decide
  · rfl

theorem nfcAux_ne (s : List Char) :
    ∀ acc : List Char, acc ≠ [] → nfcAux acc s ≠ [] := by
  induction s with
  | nil =>
      intro acc h
      simp only [nfcAux]
      simpa using h
  | cons c t ih =>
      intro acc h
      match acc with
      | [] => exact absurd rfl h
      | p :: ps =>
          simp only [nfcAux]
          match hc : composePair p c with
          | some w => exact ih (w :: ps) (by simp)
          | none => exact ih (c :: p :: ps) (by simp)

theorem nfc_ne_nil {s : List Char} (h : s ≠ []) : nfc s ≠ [] := by
  match s with
  | [] => exact absurd rfl h
  | c :: t =>
      show nfcAux [] (c :: t) ≠ []
      simp only [nfcAux]
      exact nfcAux_ne t [c] (by simp)

theorem nfcAux_eq_of_norm (s : List Char) :
    ∀ acc : List Char, NormP (acc.reverse ++ s) →
      nfcAux acc s = acc.reverse ++ s := by
  induction s with
  | nil => intro acc _; simp [nfcAux]
  | cons c t ih =>
      intro acc h
      match acc with
      | [] => simpa using ih [c] (by simpa using h)
      | p :: ps =>
          have hadj : NoComp p c := by
            have h2 := (List.chain'_append.mp
              (show List.Chain' NoComp (((p :: ps).reverse) ++ (c :: t)) from h)).2.2
            exact h2 p (by simp) c rfl
          simp only [nfcAux]
          rw [hadj]
          have : (c :: p :: ps).reverse ++ t = (p :: ps).reverse ++ (c :: t) := by
            simp
          rw [ih (c :: p :: ps) (by rw [this]; exact h), this]

theorem nfc_eq_of_norm {s : List Char} (h : NormP s) : nfc s = s :=
  nfcAux_eq_of_norm s [] (by simpa using h)

theorem nfcAux_norm_out (s : List Char) :
    ∀ acc : List Char, NormP acc.reverse → NormP (nfcAux acc s) := by
  induction s with
  | nil => intro acc h; simpa [nfcAux] using h
  | cons c t ih =>
      intro acc h
      match acc with
      | [] => exact ih [c] (by simp [NormP])
      | p :: ps =>
          simp only [nfcAux]
          match hc : composePair p c with
          | some w =>
              apply ih (w :: ps)
              have hsplit := List.chain'_append.mp
                (show List.Chain' NoComp (ps.reverse ++ [p]) by simpa using h)
              rw [List.reverse_cons]
              refine List.chain'_append.mpr ⟨hsplit.1, List.chain'_singleton w, ?_⟩
              intro x _ y hy
              have hyw : w = y := by simpa using hy
              subst hyw
              exact noComp_of_not_combining x w (composePair_starter hc)
          | none =>
              apply ih (c :: p :: ps)
              have hadjn : NoComp p c := hc
              rw [List.reverse_cons]
              refine List.chain'_append.mpr ⟨by simpa using h, List.chain'_singleton c, ?_⟩
              intro x hx y hy
              have hyc : c = y := by simpa using hy
              subst hyc
              rw [List.reverse_cons, List.getLast?_concat] at hx
              have hxp : p = x := by simpa using hx
              subst hxp
              exact hadjn

theorem norm_nfc (s : List Char) : NormP (nfc s) :=
  nfcAux_norm_out s [] (by simp [NormP])

theorem nfc_singleton (c : Char) : nfc [c] = [c] := rfl

theorem normP_all_combining {s : List Char}
    (h : ∀ c ∈ s, combining c = true) : NormP s := by
  induction s with
  | nil => exact List.chain'_nil
  | cons c t ih =>
      match t with
      | [] => exact List.chain'_singleton c
      | d :: t2 =>
          refine List.chain'_cons.mpr ⟨?_, ?_⟩
          · exact noComp_of_combining_left c d (h c (by simp))
          · exact ih (fun x hx => h x (by simp [hx]))

theorem nfc_all_combining {s : List Char}
    (h : ∀ c ∈ s, combining c = true) : nfc s = s :=
  nfc_eq_of_norm (normP_all_combining h)

theorem nfcAux_head (s : List Char) :
    ∀ (acc : List Char) (d : Char), acc.getLast? = some d →
      combining d = false →
      ∃ d2 t2, nfcAux acc s = d2 :: t2 ∧ combining d2 = false := by
  induction s with
  | nil =>
      intro acc d hl hd
      match hrev : acc.reverse with
      | [] =>
          rw [List.reverse_eq_nil_iff] at hrev
          rw [hrev] at hl
          exact Option.noConfusion hl
      | d2 :: t2 =>
          refine ⟨d2, t2, by simpa [nfcAux] using hrev, ?_⟩
          have : acc.reverse.head? = acc.getLast? := List.head?_reverse acc
          rw [hrev, hl] at this
          have hdd : d2 = d := by simpa using this
          rw [hdd]; exact hd
  | cons c t ih =>
      intro acc d hl hd
      match acc with
      | [] => exact Option.noConfusion hl
      | [p] =>
          have hpd : p = d := by simpa using hl
          subst hpd
          simp only [nfcAux]
          match hc : composePair p c with
          | some w =>
              exact ih [w] w (by simp) (composePair_starter hc)
          | none =>
              exact ih [c, p] p (by simp) hd
      | p :: q :: ps =>
          have hl2 : (q :: ps).getLast? = some d := by
            rw [← List.getLast?_cons_cons]; exact hl
          simp only [nfcAux]
          match hc : composePair p c with
          | some w =>
              exact ih (w :: q :: ps) d (by rw [List.getLast?_cons_cons]; exact hl2) hd
          | none =>
              exact ih (c :: p :: q :: ps) d
                (by rw [List.getLast?_cons_cons, List.getLast?_cons_cons]; exact hl2) hd

theorem nfc_head_starter (c : Char) (t : List Char)
    (h : combining c = false) :
    ∃ d2 t2, nfc (c :: t) = d2 :: t2 ∧ combining d2 = false := by
  show ∃ d2 t2, nfcAux [] (c :: t) = d2 :: t2 ∧ combining d2 = false
  simp only [nfcAux]
  exact nfcAux_head t [c] c (by simp) h

/-! ### Lemmas about the normalization scan -/

theorem rccpAux_split (s : List Char) :
    ∀ acc1 acc2 : List (List Char), acc1 ≠ [] →
      rccpAux (acc1 ++ acc2) s = rccpAux acc1 s ++ acc2 := by
  induction s with
  | nil => intro acc1 acc2 _; simp [rccpAux]
  | cons c t ih =>
      intro acc1 acc2 h1
      match acc1 with
      | [] => exact absurd rfl h1
      | e :: r =>
          by_cases hc : combining c = true
          · simp only [rccpAux, hc, List.cons_append, List.isEmpty_cons,
              Bool.not_false, Bool.and_true, Bool.true_and, if_true]
            exact ih (nfc (e ++ [c]) :: r) acc2 (by simp)
          · simp only [rccpAux, hc, List.cons_append, List.isEmpty_cons,
              Bool.not_false, Bool.false_and, if_false,
              Bool.and_true]
            exact ih ([c] :: e :: r) acc2 (by simp)

theorem rccpAux_of_norm (s : List Char) :
    ∀ e : List Char, e ≠ [] → nfc e = e → NormP (e ++ s) →
      ((rccpAux [e] s).reverse).flatten = e ++ s := by
  induction s with
  | nil => intro e _ _ _; simp [rccpAux]
  | cons c t ih =>
      intro e he hfix hnorm
      by_cases hc : combining c = true
      · have step : rccpAux [e] (c :: t) = rccpAux [nfc (e ++ [c])] t := by
          simp [rccpAux, hc]
        have hnorm2 : NormP ((e ++ [c]) ++ t) := by
          rw [List.append_assoc]; exact hnorm
        have hzfix : NormP (e ++ [c]) := (List.chain'_append.mp hnorm2).1
        have hfix2 : nfc (e ++ [c]) = e ++ [c] := nfc_eq_of_norm hzfix
        rw [step, hfix2, ih (e ++ [c]) (by simp) hfix2 hnorm2,
          List.append_assoc]
        rfl
      · have step : rccpAux [e] (c :: t) = rccpAux [[c]] t ++ [e] := by
          have h2 := rccpAux_split t [[c]] [e] (by simp)
          simp only [rccpAux, hc, Bool.false_and, if_false]
          simpa using h2
        have hct : NormP (c :: t) := by
          have := (List.chain'_append.mp hnorm).2.1
          exact this
        rw [step, List.reverse_append]
        simp only [List.reverse_singleton, List.singleton_append,
          List.flatten_cons]
        rw [ih [c] (by simp) (nfc_singleton c) hct]
        rfl

theorem rccp_of_norm {s : List Char} (h : NormP s) :
    replace_combining_chars_to_precomposed s = s := by
  match s with
  | [] => rfl
  | c :: t =>
      unfold replace_combining_chars_to_precomposed
      have step : rccpAux [] (c :: t) = rccpAux [[c]] t := by
        simp [rccpAux]
      rw [step]
      exact rccpAux_of_norm t [c] (by simp) (nfc_singleton c) h

theorem rccpAux_inv (s : List Char) :
    ∀ acc : List (List Char), (∀ e ∈ acc, e ≠ []) →
      (∀ e ∈ acc.dropLast, ∃ d t2, e = d :: t2 ∧ combining d = false) →
      NormP ((acc.reverse).flatten) →
      (∀ e ∈ rccpAux acc s, e ≠ []) ∧
      (∀ e ∈ (rccpAux acc s).dropLast,
        ∃ d t2, e = d :: t2 ∧ combining d = false) ∧
      NormP (((rccpAux acc s).reverse).flatten) := by
  induction s with
  | nil => intro acc h1 h2 h3; exact ⟨h1, h2, h3⟩
  | cons c t ih =>
      intro acc h1 h2 h3
      match acc with
      | [] =>
          have step : rccpAux [] (c :: t) = rccpAux [[c]] t := by
            simp [rccpAux]
          rw [step]
          refine ih [[c]] (by simp) (by simp) ?_
          simp [NormP]
      | e :: rest =>
          by_cases hc : combining c = true
          · have step : rccpAux (e :: rest) (c :: t) =
                rccpAux (nfc (e ++ [c]) :: rest) t := by
              simp [rccpAux, hc]
            rw [step]
            have hene : e ≠ [] := h1 e (by simp)
            have hnfcne : nfc (e ++ [c]) ≠ [] :=
              nfc_ne_nil (by simp)
            -- head of the merged element is a starter when a neighbour exists
            have hmergedhead : rest ≠ [] →
                ∃ d2 t3, nfc (e ++ [c]) = d2 :: t3 ∧ combining d2 = false := by
              intro hrest
              match rest with
              | r :: rs =>
                  have hmem : e ∈ (e :: r :: rs).dropLast := by
                    rw [List.dropLast_cons₂]; simp
                  obtain ⟨d, t2, hed, hcd⟩ := h2 e hmem
                  rw [hed]
                  exact nfc_head_starter d (t2 ++ [c]) hcd
            refine ih (nfc (e ++ [c]) :: rest) ?_ ?_ ?_
            · intro e2 he2
              rcases List.mem_cons.mp he2 with h | h
              · rw [h]; exact hnfcne
              · exact h1 e2 (by simp [h])
            · match rest with
              | [] => simp
              | r :: rs =>
                  rw [List.dropLast_cons₂]
                  intro e2 he2
                  rcases List.mem_cons.mp he2 with h | h
                  · rw [h]; exact hmergedhead (by simp)
                  · exact h2 e2 (by rw [List.dropLast_cons₂]; simp [h])
            · rw [List.reverse_cons, List.flatten_append]
              simp only [List.flatten_cons, List.flatten_nil,
                List.append_nil]
              have h3' : NormP (rest.reverse.flatten ++ e) := by
                have : (e :: rest).reverse.flatten =
                    rest.reverse.flatten ++ e := by
                  rw [List.reverse_cons, List.flatten_append]
                  simp
                rw [this] at h3
                exact h3
              have hsp := List.chain'_append.mp h3'
              refine List.chain'_append.mpr ⟨hsp.1, norm_nfc (e ++ [c]), ?_⟩
              intro x hx y hy
              match hrest : rest with
              | [] => simp at hx
              | r :: rs =>
                  obtain ⟨d2, t3, hnf, hcd2⟩ := hmergedhead (by simp)
                  rw [hnf] at hy
                  have hyd : d2 = y := by simpa using hy
                  subst hyd
                  exact noComp_of_not_combining x d2 hcd2
          · have step : rccpAux (e :: rest) (c :: t) =
                rccpAux ([c] :: e :: rest) t := by
              simp [rccpAux, hc]
            rw [step]
            have hcfalse : combining c = false := by
              exact Bool.not_eq_true (combining c) ▸ (by simpa using hc)
            refine ih ([c] :: e :: rest) ?_ ?_ ?_
            · intro e2 he2
              rcases List.mem_cons.mp he2 with h | h
              · rw [h]; simp
              · exact h1 e2 h
            · rw [List.dropLast_cons₂]
              intro e2 he2
              rcases List.mem_cons.mp he2 with h | h
              · exact ⟨c, [], h, hcfalse⟩
              · exact h2 e2 h
            · rw [List.reverse_cons, List.flatten_append]
              simp only [List.flatten_cons, List.flatten_nil,
                List.append_nil]
              refine List.chain'_append.mpr
                ⟨h3, List.chain'_singleton c, ?_⟩
              intro x hx y hy
              have hyc : c = y := by simpa using hy
              subst hyc
              exact noComp_of_not_combining x c hcfalse

theorem norm_rccp (s : List Char) :
    NormP (replace_combining_chars_to_precomposed s) :=
  (rccpAux_inv s [] (by simp) (by simp) (by simp [NormP])).2.2

/-- C5: the combining-character precomposition scan is idempotent:
normalizing an already-normalized text returns it unchanged. -/
theorem c5_normalize_idempotent (t : List Char) :
    replace_combining_chars_to_precomposed
        (replace_combining_chars_to_precomposed t) =
      replace_combining_chars_to_precomposed t :=
  rccp_of_norm (norm_rccp t)

theorem rccpAux_all_combining (pt : List Char) :
    ∀ (e : List Char) (rest : List Char), e ≠ [] →
      (∀ c ∈ e, combining c = true) → (∀ c ∈ pt, combining c = true) →
      rccpAux [e] (pt ++ rest) = rccpAux [e ++ pt] rest := by
  induction pt with
  | nil => intro e rest _ _ _; simp
  | cons c pt2 ih =>
      intro e rest he hecomb hptcomb
      have hc : combining c = true := hptcomb c (by simp)
      have step : rccpAux [e] (c :: (pt2 ++ rest)) =
          rccpAux [nfc (e ++ [c])] (pt2 ++ rest) := by
        simp [rccpAux, hc]
      have hfix : nfc (e ++ [c]) = e ++ [c] := by
        apply nfc_all_combining
        intro x hx
        rcases List.mem_append.mp hx with h | h
        · exact hecomb x h
        · have : x = c := by simpa using h
          rw [this]; exact hc
      rw [List.cons_append, step, hfix,
        ih (e ++ [c]) rest (by simp)
          (fun x hx => by
            rcases List.mem_append.mp hx with h | h
            · exact hecomb x h
            · have : x = c := by simpa using h
              rw [this]; exact hc)
          (fun x hx => hptcomb x (by simp [hx])),
        List.append_assoc]
      rfl

/-- C9: a maximal leading run of combining marks — every mark with no
preceding base character in the scanned sequence — passes through
normalization verbatim: the run appears unchanged at the head of the
output, nothing is dropped, and the rest of the text is normalized
independently.  (The model is total, so no exception can be raised.) -/
theorem c9_leading_marks (pre rest : List Char)
    (hpre : ∀ c ∈ pre, combining c = true)
    (hrest : ∀ c, rest.head? = some c → combining c = false) :
    replace_combining_chars_to_precomposed (pre ++ rest) =
      pre ++ replace_combining_chars_to_precomposed rest := by
  match pre with
  | [] => simp
  | p :: pt =>
      unfold replace_combining_chars_to_precomposed
      have step1 : rccpAux [] ((p :: pt) ++ rest) =
          rccpAux [[p]] (pt ++ rest) := by
        simp [rccpAux]
      have step2 : rccpAux [[p]] (pt ++ rest) = rccpAux [p :: pt] rest := by
        have := rccpAux_all_combining pt [p] rest (by simp)
          (by intro x hx; have : x = p := by simpa using hx
              rw [this]; exact hpre p (by simp))
          (fun x hx => hpre x (by simp [hx]))
        simpa using this
      rw [step1, step2]
      match rest with
      | [] => simp [rccpAux]
      | c :: t =>
          have hc : combining c = false := hrest c rfl
          have step3 : rccpAux [p :: pt] (c :: t) =
              rccpAux [[c]] t ++ [p :: pt] := by
            have h2 := rccpAux_split t [[c]] [p :: pt] (by simp)
            simp only [rccpAux, hc, Bool.false_and, if_false]
            simpa using h2
          have step4 : rccpAux [] (c :: t) = rccpAux [[c]] t := by
            simp [rccpAux]
          rw [step3, step4, List.reverse_append]
          simp

/-- C9 witness: the text `◌́a◌́` (combining acute, `a`, combining acute):
the leading mark with no base character is kept verbatim while the rest
normalizes, giving `◌́á`. -/
theorem c9_witness :
    replace_combining_chars_to_precomposed
        ([acuteChar] ++ ['a', acuteChar]) =
      [acuteChar] ++ replace_combining_chars_to_precomposed ['a', acuteChar] ∧
    replace_combining_chars_to_precomposed
        ([acuteChar] ++ ['a', acuteChar]) = [acuteChar, aAcute] :=
  ⟨c9_leading_marks [acuteChar] ['a', acuteChar] (by decide)
      (by intro c h
          have hca : 'a' = c := by simpa using h
          rw [← hca]; decide),
    by decide⟩

/-! ### Lemmas about document construction and identity bookkeeping -/

theorem buildAudioPaths_length (l : List (List Char)) :
    ∀ i, (buildAudioPaths i l).length = l.length := by
  induction l with
  | nil => intro i; rfl
  | cons x t ih => intro i; simp [buildAudioPaths, ih]

theorem buildAudioPaths_pids (l : List (List Char)) :
    ∀ i, (buildAudioPaths i l).map (·.pid) = List.range' i l.length := by
  induction l with
  | nil => intro i; rfl
  | cons x t ih =>
      intro i
      simp only [buildAudioPaths, List.map_cons, List.length_cons,
        List.range'_succ, ih]

theorem audio_pids_nodup (content : List Char) :
    (((private_constructor content).audio_paths).map (·.pid)).Nodup := by
  unfold private_constructor
  simp only [buildAudioPaths_pids]
  exact List.nodup_range' _ _

theorem buildAudioPaths_getD (l : List (List Char)) :
    ∀ i k, k < l.length →
      (buildAudioPaths i l).getD k default =
        ⟨i + k, parsePath (replace_combining_chars_to_precomposed
          (pyStrip (l.getD k [])))⟩ := by
  induction l with
  | nil => intro i k h; simp at h
  | cons x t ih =>
      intro i k h
      match k with
      | 0 => simp [buildAudioPaths]
      | k2 + 1 =>
          have h2 : k2 < t.length := by simpa using h
          simp only [buildAudioPaths, List.getD_cons_succ]
          rw [ih (i + 1) k2 h2]
          have : i + 1 + k2 = i + (k2 + 1) := by omega
          rw [this]

theorem buildAudioPaths_mem (l : List (List Char)) :
    ∀ i a, a ∈ buildAudioPaths i l →
      ∃ k, k < l.length ∧ a = ⟨i + k,
        parsePath (replace_combining_chars_to_precomposed
          (pyStrip (l.getD k [])))⟩ := by
  induction l with
  | nil => intro i a h; simp [buildAudioPaths] at h
  | cons x t ih =>
      intro i a h
      rcases List.mem_cons.mp h with h1 | h1
      · exact ⟨0, by simp, by simpa using h1⟩
      · obtain ⟨k, hk, hek⟩ := ih (i + 1) a h1
        refine ⟨k + 1, by simpa using hk, ?_⟩
        rw [hek]
        have : i + 1 + k = i + (k + 1) := by omega
        rw [this]
        simp

theorem buildAudioPaths_findIdx (l : List (List Char)) :
    ∀ i k, i ≤ k → k < i + l.length →
      List.findIdx (fun b => k == b.pid) (buildAudioPaths i l) = k - i := by
  induction l with
  | nil => intro i k h1 h2; simp at h2; omega
  | cons x t ih =>
      intro i k h1 h2
      simp only [buildAudioPaths, List.findIdx_cons]
      by_cases hk : k = i
      · subst hk; simp
      · have hne : (k == i) = false := by simp; omega
        rw [hne]
        simp only [cond_false]
        have := ih (i + 1) k (by omega) (by simp at h2; omega)
        rw [this]
        omega

theorem pyMem_congr {o a : AudioPath} (h : pyEqAudio o a = true)
    (l : List AudioPath) : pyMemAudio o l = pyMemAudio a l := by
  unfold pyEqAudio at h
  have hpid : o.pid = a.pid := by simpa using h
  unfold pyMemAudio pyEqAudio
  rw [hpid]

theorem pyMem_self {a : AudioPath} {l : List AudioPath} (h : a ∈ l) :
    pyMemAudio a l = true := by
  unfold pyMemAudio
  rw [List.any_eq_true]
  exact ⟨a, h, by simp [pyEqAudio]⟩

theorem pyMem_append (o : AudioPath) (l1 l2 : List AudioPath) :
    pyMemAudio o (l1 ++ l2) = (pyMemAudio o l1 || pyMemAudio o l2) := by
  unfold pyMemAudio
  exact List.any_append

theorem pyMem_addIdSet (o a : AudioPath) (l : List AudioPath) :
    pyMemAudio o (addIdSet l a) = (pyMemAudio o l || pyEqAudio o a) := by
  unfold addIdSet
  by_cases h : pyMemAudio a l = true
  · rw [if_pos h]
    by_cases h2 : pyEqAudio o a = true
    · rw [h2, pyMem_congr h2 l, h]; simp
    · simp only [Bool.not_eq_true] at h2
      rw [h2]; simp
  · rw [if_neg h, pyMem_append]
    unfold pyMemAudio
    simp

/-! ### Characterization of the two loops -/

theorem rhLoop_fails (bPre bPost : List PPath) (fs : PPath → Bool) :
    ∀ (l : List AudioPath) (d : List (AudioPath × AudioPath))
      (fails : List AudioPath),
      (((fails ++ l).map (·.pid)).Nodup) →
      (rhLoop bPre bPost fs l d fails).2 =
        fails ++ l.filter (searchFails bPre bPost fs) := by
  intro l
  induction l with
  | nil => intro d fails _; simp [rhLoop]
  | cons a rest ih =>
      intro d fails hnd
      have hnd2 : ((fails ++ rest).map (·.pid)).Nodup := by
        refine List.Nodup.sublist (List.Sublist.map _ ?_) hnd
        exact (List.sublist_cons_self a rest).append_left fails
      simp only [rhLoop]
      match hs : search_existing_path a bPre bPost fs with
      | .ok ex =>
          rw [ih (insertIdDict d a ex) fails hnd2]
          have hsf : searchFails bPre bPost fs a = false := by
            unfold searchFails; rw [hs]
          simp [List.filter_cons, hsf]
      | .error e =>
          have hmem : pyMemAudio a fails = false := by
            by_contra hcon
            rw [Bool.not_eq_false] at hcon
            unfold pyMemAudio at hcon
            rw [List.any_eq_true] at hcon
            obtain ⟨b, hbmem, hbeq⟩ := hcon
            have hpid : a.pid = b.pid := by
              unfold pyEqAudio at hbeq; simpa using hbeq
            rw [List.map_append] at hnd
            have hdisj := List.disjoint_of_nodup_append hnd
            exact hdisj (a := a.pid)
              (by rw [hpid]; exact List.mem_map_of_mem _ hbmem)
              (by simp)
          have haddset : addIdSet fails a = fails ++ [a] := by
            unfold addIdSet; rw [hmem]; simp
          have hnd3 : (((fails ++ [a]) ++ rest).map (·.pid)).Nodup := by
            rw [List.append_assoc]; simpa using hnd
          rw [haddset, ih d (fails ++ [a]) hnd3]
          have hsf : searchFails bPre bPost fs a = true := by
            unfold searchFails; rw [hs]
          simp [List.filter_cons, hsf]

theorem insertIdDict_keys (d : List (AudioPath × AudioPath))
    (k v : AudioPath) :
    (insertIdDict d k v).map Prod.fst = d.map Prod.fst ∨
      (insertIdDict d k v).map Prod.fst = d.map Prod.fst ++ [k] := by
  unfold insertIdDict
  by_cases h : d.any (fun kv => pyEqAudio kv.1 k) = true
  · rw [if_pos h]
    left
    rw [List.map_map]
    apply List.map_congr_left
    intro kv _
    by_cases h2 : pyEqAudio kv.1 k = true
    · simp [Function.comp, h2]
    · simp only [Bool.not_eq_true] at h2
      simp [Function.comp, h2]
  · rw [if_neg h]
    right
    simp

theorem rhLoop_keys (bPre bPost : List PPath) (fs : PPath → Bool) :
    ∀ (l : List AudioPath) (d : List (AudioPath × AudioPath))
      (fails : List AudioPath) (kv : AudioPath × AudioPath),
      kv ∈ (rhLoop bPre bPost fs l d fails).1 →
      kv.1 ∈ d.map Prod.fst ∨ kv.1 ∈ l := by
  intro l
  induction l with
  | nil =>
      intro d fails kv h
      simp only [rhLoop] at h
      exact Or.inl (List.mem_map_of_mem _ h)
  | cons a rest ih =>
      intro d fails kv h
      simp only [rhLoop] at h
      match hs : search_existing_path a bPre bPost fs with
      | .ok ex =>
          rw [hs] at h
          rcases ih (insertIdDict d a ex) fails kv h with h2 | h2
          · rcases insertIdDict_keys d a ex with hk | hk
            · rw [hk] at h2; exact Or.inl h2
            · rw [hk] at h2
              rcases List.mem_append.mp h2 with h3 | h3
              · exact Or.inl h3
              · have : kv.1 = a := by simpa using h3
                exact Or.inr (by simp [this])
          · exact Or.inr (by simp [h2])
      | .error e =>
          rw [hs] at h
          rcases ih d (addIdSet fails a) kv h with h2 | h2
          · exact Or.inl h2
          · exact Or.inr (by simp [h2])

theorem rapLoop_ok (m : M3uFile) :
    ∀ (dl : List (AudioPath × AudioPath)) (content : List Char)
      (missing : List AudioPath),
      (∀ kv ∈ dl, pyMemAudio kv.1 m.audio_paths = true) →
      (rapLoop m dl content missing).2 = missing := by
  intro dl
  induction dl with
  | nil => intro content missing _; rfl
  | cons kv rest ih =>
      intro content missing h
      match kv with
      | (o, e) =>
          have hmem : pyMemAudio o m.audio_paths = true := h (o, e) (by simp)
          simp only [rapLoop, hmem, if_true]
          exact ih _ missing (fun kv2 h2 => h kv2 (by simp [h2]))

theorem rapLoop_missing_mem (m : M3uFile) :
    ∀ (dl : List (AudioPath × AudioPath)) (content : List Char)
      (missing : List AudioPath) (o : AudioPath),
      pyMemAudio o (rapLoop m dl content missing).2 = true ↔
        (pyMemAudio o missing = true ∨
          ∃ kv ∈ dl, pyEqAudio o kv.1 = true ∧
            pyMemAudio kv.1 m.audio_paths = false) := by
  intro dl
  induction dl with
  | nil =>
      intro content missing o
      simp [rapLoop]
  | cons kv rest ih =>
      intro content missing o
      match kv with
      | (k, v) =>
          by_cases hm : pyMemAudio k m.audio_paths = true
          · simp only [rapLoop, hm, if_true]
            rw [ih]
            constructor
            · rintro (h | h)
              · exact Or.inl h
              · obtain ⟨kv2, h2, h3⟩ := h
                exact Or.inr ⟨kv2, by simp [h2], h3⟩
            · rintro (h | h)
              · exact Or.inl h
              · obtain ⟨kv2, h2, h3, h4⟩ := h
                rcases List.mem_cons.mp h2 with h5 | h5
                · rw [h5] at h4
                  rw [hm] at h4
                  exact absurd h4 (by simp)
                · exact Or.inr ⟨kv2, h5, h3, h4⟩
          · have hm2 : pyMemAudio k m.audio_paths = false := by
              simpa using hm
            simp only [rapLoop, hm2, Bool.false_eq_true, if_false]
            rw [ih, pyMem_addIdSet]
            constructor
            · rintro (h | h)
              · rcases Bool.or_eq_true_iff.mp h with h2 | h2
                · exact Or.inl h2
                · exact Or.inr ⟨(k, v), by simp, h2, hm2⟩
              · obtain ⟨kv2, h2, h3, h4⟩ := h
                exact Or.inr ⟨kv2, by simp [h2], h3, h4⟩
            · rintro (h | h)
              · exact Or.inl (by rw [h]; simp)
              · obtain ⟨kv2, h2, h3, h4⟩ := h
                rcases List.mem_cons.mp h2 with h5 | h5
                · rw [h5] at h3
                  exact Or.inl (by rw [h3]; simp)
                · exact Or.inr ⟨kv2, h5, h3, h4⟩

theorem rapLoop_missing_elems (m : M3uFile) :
    ∀ (dl : List (AudioPath × AudioPath)) (content : List Char)
      (missing : List AudioPath) (o : AudioPath),
      o ∈ (rapLoop m dl content missing).2 →
      o ∈ missing ∨ ∃ kv ∈ dl, o = kv.1 ∧
        pyMemAudio kv.1 m.audio_paths = false := by
  intro dl
  induction dl with
  | nil => intro content missing o h; exact Or.inl h
  | cons kv rest ih =>
      intro content missing o h
      match kv with
      | (k, v) =>
          by_cases hm : pyMemAudio k m.audio_paths = true
          · simp only [rapLoop, hm, if_true] at h
            rcases ih _ _ _ h with h2 | h2
            · exact Or.inl h2
            · obtain ⟨kv2, h3, h4⟩ := h2
              exact Or.inr ⟨kv2, by simp [h3], h4⟩
          · have hm2 : pyMemAudio k m.audio_paths = false := by
              simpa using hm
            simp only [rapLoop, hm2, Bool.false_eq_true, if_false] at h
            rcases ih _ _ _ h with h2 | h2
            · unfold addIdSet at h2
              by_cases h3 : pyMemAudio k missing = true
              · rw [if_pos h3] at h2; exact Or.inl h2
              · rw [if_neg h3] at h2
                rcases List.mem_append.mp h2 with h4 | h4
                · exact Or.inl h4
                · have : o = k := by simpa using h4
                  exact Or.inr ⟨(k, v), by simp, this, hm2⟩
            · obtain ⟨kv2, h3, h4⟩ := h2
              exact Or.inr ⟨kv2, by simp [h3], h4⟩

/-- C1: the per-playlist rewrite attempts resolution of every parsed
reference before raising: the references whose resolution raises are
collected — all of them, not only the first — and exactly when that
collection is non-empty the operation fails with the batch error
carrying it, returning no document; when it is empty a document is
returned. -/
theorem c1_all_attempted (content : List Char) (bPre bPost : List PPath)
    (fs : PPath → Bool) :
    ((private_constructor content).audio_paths.filter
        (searchFails bPre bPost fs) ≠ [] →
      replace_heads_of_audio_paths (private_constructor content)
          bPre bPost fs =
        .error (.unresolvable ((private_constructor content).audio_paths.filter
          (searchFails bPre bPost fs)))) ∧
    ((private_constructor content).audio_paths.filter
        (searchFails bPre bPost fs) = [] →
      ∃ m2, replace_heads_of_audio_paths (private_constructor content)
          bPre bPost fs = .ok m2) := by
  have hnd : ((([] : List AudioPath) ++
      (private_constructor content).audio_paths).map (·.pid)).Nodup := by
    simpa using audio_pids_nodup content
  have hfails := rhLoop_fails bPre bPost fs
    (private_constructor content).audio_paths [] [] hnd
  rw [List.nil_append] at hfails
  constructor
  · intro hne
    unfold replace_heads_of_audio_paths
    rw [hfails]
    have hie : ((private_constructor content).audio_paths.filter
        (searchFails bPre bPost fs)).isEmpty = false := by
      cases hX : ((private_constructor content).audio_paths.filter
          (searchFails bPre bPost fs)).isEmpty
      · rfl
      · exact absurd (by simpa using hX) hne
    rw [hie]
    simp
  · intro hnil
    have hie : ((rhLoop bPre bPost fs
        (private_constructor content).audio_paths [] []).2).isEmpty = true := by
      rw [hfails, hnil]; rfl
    unfold replace_heads_of_audio_paths
    rw [hie]
    simp only [if_true]
    have hkeys : ∀ kv ∈ (rhLoop bPre bPost fs
        (private_constructor content).audio_paths [] []).1,
        pyMemAudio kv.1 (private_constructor content).audio_paths = true := by
      intro kv hkv
      rcases rhLoop_keys bPre bPost fs
        (private_constructor content).audio_paths [] [] kv hkv with h | h
      · simp at h
      · exact pyMem_self h
    have hrap := rapLoop_ok (private_constructor content)
      (rhLoop bPre bPost fs (private_constructor content).audio_paths [] []).1
      (private_constructor content).content [] hkeys
    have hre : replace_audio_paths (private_constructor content)
        (rhLoop bPre bPost fs
          (private_constructor content).audio_paths [] []).1 =
        .ok (private_constructor
          ((rapLoop (private_constructor content)
            (rhLoop bPre bPost fs
              (private_constructor content).audio_paths [] []).1
            (private_constructor content).content []).1)) := by
      unfold replace_audio_paths
      rw [hrap]
      rfl
    rw [hre]
    exact ⟨_, rfl⟩

/-- C1 witness document: two path lines. -/
def c1content : List Char := ("/a\n/b\n" : String).data

/-- C1 witness filesystem: nothing exists, so with no before-roots every
reference fails resolution. -/
def c1fs : PPath → Bool := fun _ => false

/-- C1 witness: both references fail, the batch error carries both —
resolution was attempted for every reference, not aborted at the first
failure. -/
theorem c1_witness :
    replace_heads_of_audio_paths (private_constructor c1content) [] [] c1fs =
      .error (.unresolvable ((private_constructor c1content).audio_paths.filter
        (searchFails [] [] c1fs))) ∧
    ((private_constructor c1content).audio_paths.filter
      (searchFails [] [] c1fs)).length = 2 :=
  ⟨(c1_all_attempted c1content [] [] c1fs).1 (by decide), by decide⟩

/-- C8: the replace operation checks every supplied original reference
for presence among the document's parsed references in one pass: when
any are absent it fails with the unknown-path error whose carried set
lists every missing original (and only missing originals), returning no
document; when all are present it returns a document. -/
theorem c8_unknown_paths (content : List Char)
    (d : List (AudioPath × AudioPath)) :
    ((∃ kv ∈ d, pyMemAudio kv.1
        (private_constructor content).audio_paths = false) →
      ∃ miss, replace_audio_paths (private_constructor content) d =
          .error (.unknownPaths miss) ∧
        (∀ kv ∈ d, pyMemAudio kv.1
            (private_constructor content).audio_paths = false →
          pyMemAudio kv.1 miss = true) ∧
        (∀ o ∈ miss, pyMemAudio o
            (private_constructor content).audio_paths = false ∧
          ∃ kv ∈ d, o = kv.1)) ∧
    ((∀ kv ∈ d, pyMemAudio kv.1
        (private_constructor content).audio_paths = true) →
      ∃ m2, replace_audio_paths (private_constructor content) d = .ok m2) := by
  constructor
  · intro hex
    obtain ⟨kv0, hkv0, hmiss0⟩ := hex
    have hne : pyMemAudio kv0.1
        ((rapLoop (private_constructor content) d
          (private_constructor content).content []).2) = true := by
      rw [rapLoop_missing_mem]
      exact Or.inr ⟨kv0, hkv0, by simp [pyEqAudio], hmiss0⟩
    have hienil : ((rapLoop (private_constructor content) d
        (private_constructor content).content []).2).isEmpty = false := by
      cases hX : ((rapLoop (private_constructor content) d
          (private_constructor content).content []).2).isEmpty
      · rfl
      · have : (rapLoop (private_constructor content) d
            (private_constructor content).content []).2 = [] := by
          simpa using hX
        rw [this] at hne
        simp [pyMemAudio] at hne
    refine ⟨(rapLoop (private_constructor content) d
        (private_constructor content).content []).2, ?_, ?_, ?_⟩
    · unfold replace_audio_paths
      rw [hienil]
      simp
    · intro kv hkv hm
      rw [rapLoop_missing_mem]
      exact Or.inr ⟨kv, hkv, by simp [pyEqAudio], hm⟩
    · intro o ho
      rcases rapLoop_missing_elems (private_constructor content) d
        (private_constructor content).content [] o ho with h | h
      · simp at h
      · obtain ⟨kv, hkv, hokv, hmkv⟩ := h
        exact ⟨by rw [hokv]; exact hmkv, kv, hkv, hokv⟩
  · intro hall
    have hrap := rapLoop_ok (private_constructor content) d
      (private_constructor content).content [] hall
    refine ⟨private_constructor ((rapLoop (private_constructor content) d
      (private_constructor content).content []).1), ?_⟩
    unfold replace_audio_paths
    rw [hrap]
    rfl

/-- C8 witness document: the single path line `/a`. -/
def c8content : List Char := ("/a\n" : String).data

/-- C8 witness mapping: two keys absent from the document (identity
tokens 5 and 7 name no parsed reference). -/
def c8dict : List (AudioPath × AudioPath) :=
  [(⟨5, parsePath (("/x" : String).data)⟩,
    ⟨0, parsePath (("/y" : String).data)⟩),
   (⟨7, parsePath (("/z" : String).data)⟩,
    ⟨1, parsePath (("/y" : String).data)⟩)]

/-- C8 witness: both absent keys are reported, and the operation yields
the unknown-path error rather than a document. -/
theorem c8_witness :
    ∃ miss, replace_audio_paths (private_constructor c8content) c8dict =
        .error (.unknownPaths miss) ∧
      (∀ kv ∈ c8dict, pyMemAudio kv.1
          (private_constructor c8content).audio_paths = false →
        pyMemAudio kv.1 miss = true) ∧
      (∀ o ∈ miss, pyMemAudio o
          (private_constructor c8content).audio_paths = false ∧
        ∃ kv ∈ c8dict, o = kv.1) :=
  (c8_unknown_paths c8content c8dict).1 (by decide)

/-! ### Lemmas about `pyReplace` -/

theorem isPrefixOf_nil_right {old : List Char} (h : old ≠ []) :
    old.isPrefixOf ([] : List Char) = false := by
  match old with
  | [] => exact absurd rfl h
  | c :: t => rfl

theorem pyReplaceFuel_congr :
    ∀ (n : Nat) (s old new : List Char), s.length ≤ n →
      pyReplaceFuel n s old new = pyReplaceFuel s.length s old new := by
  intro n
  induction n using Nat.strong_induction_on with
  | _ n ih =>
      intro s old new h
      match n with
      | 0 =>
          have hs : s = [] := by
            cases s with
            | nil => rfl
            | cons c t => simp at h
          rw [hs]
          rfl
      | k + 1 =>
          match s with
          | [] =>
              simp only [pyReplaceFuel, List.length_nil]
              by_cases ho : old = []
              · rw [if_pos ho]
              · rw [if_neg ho, isPrefixOf_nil_right ho]
                simp
          | c :: t =>
              simp only [List.length_cons] at h ⊢
              simp only [pyReplaceFuel]
              by_cases ho : old = []
              · rw [if_pos ho, if_pos ho]
              · rw [if_neg ho, if_neg ho]
                by_cases hp : old.isPrefixOf (c :: t) = true
                · rw [if_pos hp, if_pos hp]
                  have hopos : 0 < old.length := List.length_pos.mpr ho
                  have hd : ((c :: t).drop old.length).length ≤ t.length := by
                    simp only [List.length_drop, List.length_cons]
                    omega
                  rw [ih k (by omega) _ old new (by omega)]
                  rw [ih t.length (by omega) _ old new (by omega)]
                · have hp2 : old.isPrefixOf (c :: t) = false := by
                    cases hX : old.isPrefixOf (c :: t)
                    · rfl
                    · exact absurd hX hp
                  rw [hp2]
                  simp only [Bool.false_eq_true, if_false]
                  rw [ih k (by omega) t old new (by omega)]

theorem pyReplace_nil_pat (s new : List Char) : pyReplace s [] new = s := by
  unfold pyReplace
  match s with
  | [] => rfl
  | c :: t => simp [pyReplaceFuel]

theorem pyReplace_nil_s {old new : List Char} (h : old ≠ []) :
    pyReplace [] old new = [] := rfl

theorem pyReplace_patAtHead {s old : List Char} (h : old ≠ [])
    (hp : old.isPrefixOf s = true) (new : List Char) :
    pyReplace s old new = new ++ pyReplace (s.drop old.length) old new := by
  match s with
  | [] =>
      rw [isPrefixOf_nil_right h] at hp
      exact Bool.noConfusion hp
  | c :: t =>
      unfold pyReplace
      simp only [List.length_cons, pyReplaceFuel]
      rw [if_neg h, if_pos hp]
      have hopos : 0 < old.length := List.length_pos.mpr h
      rw [pyReplaceFuel_congr t.length _ old new
        (by simp only [List.length_drop, List.length_cons]; omega)]

theorem pyReplace_cons_noPat {c : Char} {t old : List Char}
    (h : old ≠ []) (hp : old.isPrefixOf (c :: t) = false) (new : List Char) :
    pyReplace (c :: t) old new = c :: pyReplace t old new := by
  unfold pyReplace
  simp only [List.length_cons, pyReplaceFuel]
  rw [if_neg h, hp]
  simp

theorem pyReplace_self_aux (n : Nat) :
    ∀ s old : List Char, s.length ≤ n → pyReplace s old old = s := by
  induction n with
  | zero =>
      intro s old h
      have hs : s = [] := by
        cases s with
        | nil => rfl
        | cons c t => simp at h
      subst hs
      by_cases ho : old = []
      · rw [ho]; exact pyReplace_nil_pat [] []
      · exact pyReplace_nil_s ho
  | succ k ih =>
      intro s old h
      by_cases ho : old = []
      · rw [ho]; exact pyReplace_nil_pat s []
      · by_cases hp : old.isPrefixOf s = true
        · rw [pyReplace_patAtHead ho hp]
          obtain ⟨t, rfl⟩ := List.isPrefixOf_iff_prefix.mp hp
          rw [List.drop_left]
          rw [ih t old ?_]
          · have hopos : 0 < old.length := List.length_pos.mpr ho
            rw [List.length_append] at h
            omega
        · have hp2 : old.isPrefixOf s = false := by
            cases hX : old.isPrefixOf s
            · rfl
            · exact absurd hX hp
          match s with
          | [] => exact pyReplace_nil_s ho
          | c :: t =>
              rw [pyReplace_cons_noPat ho hp2]
              rw [ih t old (by simp at h; omega)]

/-- `str.replace(x, x)` is the identity (the no-op rewrite case). -/
theorem pyReplace_self (s old : List Char) : pyReplace s old old = s :=
  pyReplace_self_aux s.length s old (le_refl _)

theorem occursIn_cons (pat : List Char) (c : Char) (t : List Char) :
    occursIn pat (c :: t) = (pat.isPrefixOf (c :: t) || occursIn pat t) :=
  rfl

theorem pyReplace_no_occurrence_aux (n : Nat) :
    ∀ s old new : List Char, s.length ≤ n → occursIn old s = false →
      pyReplace s old new = s := by
  induction n with
  | zero =>
      intro s old new h hocc
      have hs : s = [] := by
        cases s with
        | nil => rfl
        | cons c t => simp at h
      subst hs
      have ho : old ≠ [] := by
        intro hcon
        subst hcon
        simp [occursIn, List.isPrefixOf] at hocc
      exact pyReplace_nil_s ho
  | succ k ih =>
      intro s old new h hocc
      have ho : old ≠ [] := by
        intro hcon
        subst hcon
        match s with
        | [] => simp [occursIn, List.isPrefixOf] at hocc
        | c :: t => simp [occursIn, List.isPrefixOf] at hocc
      match s with
      | [] => exact pyReplace_nil_s ho
      | c :: t =>
          rw [occursIn_cons] at hocc
          have hp : old.isPrefixOf (c :: t) = false := by
            cases hX : old.isPrefixOf (c :: t)
            · rfl
            · rw [hX] at hocc; simp at hocc
          have ht : occursIn old t = false := by
            cases hX : occursIn old t
            · rfl
            · rw [hX] at hocc; simp at hocc
          rw [pyReplace_cons_noPat ho hp]
          rw [ih t old new (by simp at h; omega) ht]

/-- A pattern that does not occur in `s` leaves `s` unchanged. -/
theorem pyReplace_no_occurrence {s old new : List Char}
    (h : occursIn old s = false) : pyReplace s old new = s :=
  pyReplace_no_occurrence_aux s.length s old new (le_refl _) h

/-! ### The no-op rewrite (claim C3) -/

theorem rhLoop_allok (bPre bPost : List PPath) (fs : PPath → Bool) :
    ∀ (l : List AudioPath) (d : List (AudioPath × AudioPath))
      (fails : List AudioPath),
      (∀ a ∈ l, search_existing_path a bPre bPost fs = .ok a) →
      (∀ a ∈ l, d.any (fun kv => pyEqAudio kv.1 a) = false) →
      ((l.map (·.pid)).Nodup) →
      rhLoop bPre bPost fs l d fails =
        (d ++ l.map (fun a => (a, a)), fails) := by
  intro l
  induction l with
  | nil => intro d fails _ _ _; simp [rhLoop]
  | cons a rest ih =>
      intro d fails hok hdisj hnd
      simp only [rhLoop]
      simp only [hok a (by simp)]
      have hins : insertIdDict d a a = d ++ [(a, a)] := by
        unfold insertIdDict
        rw [if_neg]
        rw [hdisj a (by simp)]
        simp
      rw [hins]
      rw [ih (d ++ [(a, a)]) fails
        (fun b hb => hok b (by simp [hb]))
        ?_ ((List.nodup_cons.mp (by simpa using hnd)).2)]
      · simp
      · intro b hb
        rw [List.any_append]
        have h1 : d.any (fun kv => pyEqAudio kv.1 b) = false :=
          hdisj b (by simp [hb])
        have h2 : ([(a, a)].any (fun kv => pyEqAudio kv.1 b)) = false := by
          simp only [List.any_cons, List.any_nil, Bool.or_false]
          unfold pyEqAudio
          have hnd2 := by simpa using hnd
          have : a.pid ≠ b.pid := by
            have hmem : b.pid ∈ rest.map (·.pid) :=
              List.mem_map_of_mem _ hb
            intro hcon
            rw [List.map_cons] at hnd
            have := (List.nodup_cons.mp hnd).1
            rw [hcon] at this
            exact this hmem
          simp [this]
        rw [h1, h2]
        rfl

theorem rapLoop_id (m : M3uFile) :
    ∀ (pairs : List (AudioPath × AudioPath)) (content : List Char),
      (∀ kv ∈ pairs, pyMemAudio kv.1 m.audio_paths = true ∧
        targetLine m kv.1 = strAudio kv.2) →
      rapLoop m pairs content [] = (content, []) := by
  intro pairs
  induction pairs with
  | nil => intro content _; rfl
  | cons kv rest ih =>
      intro content h
      match kv with
      | (o, e) =>
          obtain ⟨hm, ht⟩ := h (o, e) (by simp)
          simp only [rapLoop, hm, if_true]
          rw [ht, pyReplace_self]
          exact ih content (fun kv2 h2 => h kv2 (by simp [h2]))

theorem audio_mem_spec (content : List Char) :
    ∀ a ∈ (private_constructor content).audio_paths,
      a.pid < (private_constructor content).path_lines.length ∧
      (private_constructor content).audio_paths.getD a.pid default = a ∧
      indexOfAudio a (private_constructor content).audio_paths = a.pid := by
  intro a ha
  have hmem := buildAudioPaths_mem
    ((pySplitlines content).filter isPathLine) 0 a (by simpa [private_constructor] using ha)
  obtain ⟨k, hk, hak⟩ := hmem
  have hpid : a.pid = k := by rw [hak]; simp
  refine ⟨?_, ?_, ?_⟩
  · show a.pid < ((pySplitlines content).filter isPathLine).length
    omega
  · show (buildAudioPaths 0 ((pySplitlines content).filter isPathLine)).getD
        a.pid default = a
    rw [hpid, buildAudioPaths_getD _ 0 k hk]
    rw [hak]
  · show List.findIdx (pyEqAudio a)
        (buildAudioPaths 0 ((pySplitlines content).filter isPathLine)) = a.pid
    have : pyEqAudio a = fun b => a.pid == b.pid := rfl
    rw [this, hpid]
    rw [buildAudioPaths_findIdx _ 0 k (by omega) (by omega)]
    omega

/-- C3 (amended): if every parsed reference of a document exists on the
filesystem AND every retained raw path line is already identical to the
string form of its parsed reference (trimmed, precomposed, and in
canonical path spelling), the rewrite succeeds and returns a document
byte-for-byte equal to the input. -/
theorem c3_noop_roundtrip (content : List Char) (bPre bPost : List PPath)
    (fs : PPath → Bool)
    (hex : ∀ a ∈ (private_constructor content).audio_paths,
      fs a.path = true)
    (hcanon : ∀ k, k < (private_constructor content).path_lines.length →
      (private_constructor content).path_lines.getD k [] =
        strAudio ((private_constructor content).audio_paths.getD k default)) :
    replace_heads_of_audio_paths (private_constructor content)
        bPre bPost fs = .ok (private_constructor content) := by
  have hok : ∀ a ∈ (private_constructor content).audio_paths,
      search_existing_path a bPre bPost fs = .ok a := by
    intro a ha
    unfold search_existing_path
    rw [hex a ha]
    simp
  have hloop := rhLoop_allok bPre bPost fs
    (private_constructor content).audio_paths [] [] hok
    (by intro a _; rfl) (audio_pids_nodup content)
  have htarget : ∀ a ∈ (private_constructor content).audio_paths,
      targetLine (private_constructor content) a = strAudio a := by
    intro a ha
    obtain ⟨hlt, hgetd, hidx⟩ := audio_mem_spec content a ha
    unfold targetLine
    rw [hidx, hcanon a.pid hlt, hgetd]
  have hpairs : ∀ kv ∈ (private_constructor content).audio_paths.map
      (fun a => (a, a)),
      pyMemAudio kv.1 (private_constructor content).audio_paths = true ∧
        targetLine (private_constructor content) kv.1 = strAudio kv.2 := by
    intro kv hkv
    rw [List.mem_map] at hkv
    obtain ⟨a, ha, hkva⟩ := hkv
    rw [← hkva]
    exact ⟨pyMem_self ha, htarget a ha⟩
  have hrap := rapLoop_id (private_constructor content)
    ((private_constructor content).audio_paths.map (fun a => (a, a)))
    (private_constructor content).content hpairs
  unfold replace_heads_of_audio_paths
  rw [hloop]
  simp only [List.nil_append, List.isEmpty_nil, if_true]
  have hre : replace_audio_paths (private_constructor content)
      ((private_constructor content).audio_paths.map (fun a => (a, a))) =
      .ok (private_constructor content) := by
    unfold replace_audio_paths
    rw [hrap]
    rfl
  rw [hre]

/-- C3 counterexample content: the raw path line carries surrounding
spaces, so it differs from the string form of its parsed reference. -/
def c3content : List Char := ((" /a \n" : String).data)

/-- C3 counterexample filesystem: the parsed reference `/a` exists. -/
def c3fs : PPath → Bool := fun p => p == parsePath (("/a" : String).data)

/-- C3 is false as stated: every parsed reference of the document exists
on disk, yet the rewrite returns content `"/a\n"` — the no-op fast path
replaces the raw line `" /a "` by the normalized string `"/a"`, so the
serialized text is not byte-for-byte equal to the input. -/
theorem c3_counterexample :
    ((replace_heads_of_audio_paths (private_constructor c3content)
        [] [] c3fs).map (fun m => m.content)) =
      .ok (("/a\n" : String).data) ∧
    (("/a\n" : String).data) ≠ c3content ∧
    (∀ a ∈ (private_constructor c3content).audio_paths,
      c3fs a.path = true) := by
  decide

/-- C3 witness content: a raw line already in canonical form. -/
def c3wcontent : List Char := (("/a\n" : String).data)

/-- C3 witness: with the raw line equal to its reference's string form
and the reference existing on disk, the rewrite returns the identical
document. -/
theorem c3_witness :
    replace_heads_of_audio_paths (private_constructor c3wcontent)
        [] [] c3fs = .ok (private_constructor c3wcontent) :=
  c3_noop_roundtrip c3wcontent [] [] c3fs (by decide) (by decide)

/-! ### Structural equations for `splitKeep` -/

/-- No character of `l` is a line-break character. -/
def NoBreak (l : List Char) : Prop := ∀ c ∈ l, isLineBreak c = false

instance (l : List Char) : Decidable (NoBreak l) :=
  inferInstanceAs (Decidable (∀ c ∈ l, isLineBreak c = false))

theorem splitKeepAux_accum (b : List Char) :
    ∀ (s : List Char) (acc : List Char), NoBreak b →
      splitKeepAux acc (b ++ s) = splitKeepAux (b.reverse ++ acc) s := by
  induction b with
  | nil => intro s acc _; simp
  | cons x b2 ih =>
      intro s acc hnb
      have hx : isLineBreak x = false := hnb x (by simp)
      show splitKeepAux acc (x :: (b2 ++ s)) = _
      conv_lhs => rw [splitKeepAux.eq_def]
      simp only [hx, Bool.false_eq_true, if_false]
      rw [ih s (x :: acc) (fun c hc => hnb c (by simp [hc]))]
      simp

theorem splitKeep_nobreak {b : List Char} (hnb : NoBreak b) :
    splitKeep b = if b.isEmpty then [] else [(b, [])] := by
  unfold splitKeep
  have := splitKeepAux_accum b [] [] hnb
  rw [List.append_nil] at this
  rw [this, List.append_nil]
  conv_lhs => rw [splitKeepAux.eq_def]
  by_cases hb : b = []
  · rw [hb]; simp
  · have h1 : b.reverse.isEmpty = false := by
      simp [List.isEmpty_iff, hb]
    have h2 : b.isEmpty = false := by
      simp [List.isEmpty_iff, hb]
    simp only [h1, h2, Bool.false_eq_true, if_false]
    simp

theorem splitKeep_crlf {b : List Char} (hnb : NoBreak b) (t : List Char) :
    splitKeep (b ++ '\r' :: '\n' :: t) =
      (b, ['\r', '\n']) :: splitKeep t := by
  unfold splitKeep
  rw [splitKeepAux_accum b _ [] hnb]
  rw [List.append_nil]
  conv_lhs => rw [splitKeepAux.eq_def]
  have h1 : isLineBreak '\x0d' = true := by decide
  simp only [h1, if_true]
  simp

theorem splitKeep_break {b : List Char} (hnb : NoBreak b) {c : Char}
    (hc : isLineBreak c = true) (hcr : c ≠ '\r') (t : List Char) :
    splitKeep (b ++ c :: t) = (b, [c]) :: splitKeep t := by
  unfold splitKeep
  rw [splitKeepAux_accum b _ [] hnb]
  rw [List.append_nil]
  conv_lhs => rw [splitKeepAux.eq_def]
  have hcr2 : (c == '\r') = false := by simp [hcr]
  simp only [hc, if_true, hcr2, Bool.false_eq_true, if_false]
  simp

theorem splitKeep_cr {b : List Char} (hnb : NoBreak b) {t : List Char}
    (ht : ∀ d, t.head? = some d → d ≠ '\n') :
    splitKeep (b ++ '\r' :: t) = (b, ['\r']) :: splitKeep t := by
  unfold splitKeep
  rw [splitKeepAux_accum b _ [] hnb]
  rw [List.append_nil]
  have h1 : isLineBreak '\x0d' = true := by decide
  match t with
  | [] =>
      conv_lhs => rw [splitKeepAux.eq_def]
      simp only [h1, if_true]
      simp [splitKeepAux]
  | d :: t2 =>
      have hd : d ≠ '\n' := ht d rfl
      have hd2 : (d == '\n') = false := by simp [hd]
      conv_lhs => rw [splitKeepAux.eq_def]
      simp only [h1, if_true, hd2, Bool.false_eq_true, if_false]
      simp

theorem splitKeep_body_nobreak_aux (n : Nat) :
    ∀ (s : List Char) (acc : List Char), s.length ≤ n →
      (∀ c ∈ acc, isLineBreak c = false) →
      ∀ be ∈ splitKeepAux acc s, NoBreak be.1 := by
  induction n using Nat.strong_induction_on with
  | _ n ih =>
      intro s acc hlen hacc be hbe
      match s with
      | [] =>
          rw [splitKeepAux.eq_def] at hbe
          simp only [] at hbe
          by_cases h : acc.isEmpty
          · rw [if_pos h] at hbe; simp at hbe
          · rw [if_neg h] at hbe
            have : be = (acc.reverse, []) := by simpa using hbe
            rw [this]
            intro c hc
            exact hacc c (by simpa using hc)
      | c :: t =>
          have hn : 0 < n := by
            have := hlen; simp at this; omega
          rw [splitKeepAux.eq_def] at hbe
          simp only [] at hbe
          by_cases hc : isLineBreak c = true
          · rw [if_pos hc] at hbe
            by_cases hcr : (c == '\r') = true
            · rw [if_pos hcr] at hbe
              match t with
              | [] =>
                  simp only [] at hbe
                  have : be = (acc.reverse, ['\r']) := by simpa using hbe
                  rw [this]
                  intro x hx
                  exact hacc x (by simpa using hx)
              | d :: t2 =>
                  simp only [] at hbe
                  have hlen2 : t2.length ≤ n - 1 := by
                    simp only [List.length_cons] at hlen; omega
                  have hlen3 : (d :: t2).length ≤ n - 1 + 1 := by
                    simp only [List.length_cons] at hlen ⊢; omega
                  by_cases hd : (d == '\n') = true
                  · rw [if_pos hd] at hbe
                    rcases List.mem_cons.mp hbe with h1 | h1
                    · rw [h1]
                      intro x hx
                      exact hacc x (by simpa using hx)
                    · exact ih (n - 1) (by omega) t2 [] hlen2 (by simp) be h1
                  · rw [if_neg hd] at hbe
                    rcases List.mem_cons.mp hbe with h1 | h1
                    · rw [h1]
                      intro x hx
                      exact hacc x (by simpa using hx)
                    · match n, hn with
                      | k + 1, _ =>
                          exact ih k (by omega) (d :: t2) []
                            (by simp only [List.length_cons] at hlen ⊢; omega)
                            (by simp) be h1
            · rw [if_neg hcr] at hbe
              rcases List.mem_cons.mp hbe with h1 | h1
              · rw [h1]
                intro x hx
                exact hacc x (by simpa using hx)
              · match n, hn with
                | k + 1, _ =>
                    exact ih k (by omega) t []
                      (by simp only [List.length_cons] at hlen; omega)
                      (by simp) be h1
          · rw [if_neg hc] at hbe
            match n, hn with
            | k + 1, _ =>
                refine ih k (by omega) t (c :: acc)
                  (by simp only [List.length_cons] at hlen; omega) ?_ be hbe
                intro x hx
                rcases List.mem_cons.mp hx with h1 | h1
                · rw [h1]; simpa using hc
                · exact hacc x h1

theorem splitKeep_body_nobreak (s : List Char) (acc : List Char)
    (hacc : ∀ c ∈ acc, isLineBreak c = false) :
    ∀ be ∈ splitKeepAux acc s, NoBreak be.1 :=
  splitKeep_body_nobreak_aux s.length s acc (le_refl _) hacc

theorem path_lines_nobreak (content : List Char) :
    ∀ l ∈ (private_constructor content).path_lines, NoBreak l := by
  intro l hl
  have hl2 : l ∈ pySplitlines content := by
    have : (private_constructor content).path_lines =
        (pySplitlines content).filter isPathLine := rfl
    rw [this] at hl
    exact List.mem_of_mem_filter hl
  unfold pySplitlines at hl2
  rw [List.mem_map] at hl2
  obtain ⟨be, hbe, hbel⟩ := hl2
  rw [← hbel]
  exact splitKeep_body_nobreak content [] (by simp) be hbe

theorem path_lines_ne_nil (content : List Char) :
    ∀ l ∈ (private_constructor content).path_lines, l ≠ [] := by
  intro l hl
  have : (private_constructor content).path_lines =
      (pySplitlines content).filter isPathLine := rfl
  rw [this] at hl
  have hp := List.of_mem_filter hl
  unfold isPathLine at hp
  intro hcon
  rw [hcon] at hp
  simp at hp

/-! ### `pyReplace` distributes over characters outside the pattern -/

theorem prefix_of_append_cons {old u v : List Char} {c : Char}
    (hc : c ∉ old) (h : old <+: u ++ c :: v) : old <+: u := by
  by_cases hlen : old.length ≤ u.length
  · exact List.prefix_of_prefix_length_le h (List.prefix_append u (c :: v))
      hlen
  · exfalso
    have h2 : u ++ [c] <+: u ++ c :: v := ⟨v, by simp⟩
    have h3 : u ++ [c] <+: old := by
      refine List.prefix_of_prefix_length_le h2 h ?_
      simp only [List.length_append, List.length_cons, List.length_nil]
      omega
    exact hc (h3.subset (by simp))

theorem pyReplace_split_aux (old new : List Char) (hne : old ≠ [])
    (c : Char) (hc : c ∉ old) (n : Nat) :
    ∀ u v : List Char, u.length ≤ n →
      pyReplace (u ++ c :: v) old new =
        pyReplace u old new ++ c :: pyReplace v old new := by
  induction n using Nat.strong_induction_on with
  | _ n ih =>
      intro u v hlen
      by_cases hp : old.isPrefixOf (u ++ c :: v) = true
      · have hpre : old <+: u :=
          prefix_of_append_cons hc ( List.isPrefixOf_iff_prefix.mp hp)
        obtain ⟨u2, rfl⟩ := hpre
        have hp2 : old.isPrefixOf (old ++ u2) = true :=
          List.isPrefixOf_iff_prefix.mpr ⟨u2, rfl⟩
        rw [pyReplace_patAtHead hne hp new, pyReplace_patAtHead hne hp2 new]
        have hd1 : ((old ++ u2) ++ c :: v).drop old.length = u2 ++ c :: v := by
          rw [List.append_assoc, List.drop_left]
        have hd2 : (old ++ u2).drop old.length = u2 := List.drop_left _ _
        rw [hd1, hd2]
        have hopos : 0 < old.length := List.length_pos.mpr hne
        have hul : u2.length < n := by
          rw [List.length_append] at hlen
          omega
        rw [ih u2.length hul u2 v (le_refl _), List.append_assoc]
      · have hp2 : old.isPrefixOf (u ++ c :: v) = false := by
          cases hX : old.isPrefixOf (u ++ c :: v)
          · rfl
          · exact absurd hX hp
        match u with
        | [] =>
            rw [List.nil_append] at hp2 ⊢
            rw [pyReplace_cons_noPat hne hp2 new, pyReplace_nil_s hne,
              List.nil_append]
        | x :: u2 =>
            have hmain : old.isPrefixOf (x :: (u2 ++ c :: v)) = false := hp2
            have hlen2 : u2.length < n := by
              simp only [List.length_cons] at hlen
              omega
            have hp3 : old.isPrefixOf (x :: u2) = false := by
              cases hX : old.isPrefixOf (x :: u2)
              · rfl
              · exfalso
                have hpre2 : old <+: x :: u2 :=
                  List.isPrefixOf_iff_prefix.mp hX
                have : old <+: (x :: u2) ++ c :: v :=
                  hpre2.trans (List.prefix_append _ _)
                rw [ List.isPrefixOf_iff_prefix.mpr this] at hp2
                exact Bool.noConfusion hp2
            show pyReplace (x :: (u2 ++ c :: v)) old new = _
            rw [pyReplace_cons_noPat hne hmain new,
              pyReplace_cons_noPat hne hp3 new,
              ih u2.length hlen2 u2 v (le_refl _)]
            rfl

/-- Replacement distributes across a character that cannot be part of
the pattern. -/
theorem pyReplace_split {old : List Char} (new : List Char)
    (hne : old ≠ []) {c : Char} (hc : c ∉ old) (u v : List Char) :
    pyReplace (u ++ c :: v) old new =
      pyReplace u old new ++ c :: pyReplace v old new :=
  pyReplace_split_aux old new hne c hc u.length u v (le_refl _)

theorem pyReplace_chars_aux (old new : List Char) (n : Nat) :
    ∀ s : List Char, s.length ≤ n →
      ∀ x ∈ pyReplace s old new, x ∈ s ∨ x ∈ new := by
  induction n using Nat.strong_induction_on with
  | _ n ih =>
      intro s hlen x hx
      by_cases ho : old = []
      · rw [ho, pyReplace_nil_pat] at hx
        exact Or.inl hx
      · by_cases hp : old.isPrefixOf s = true
        · rw [pyReplace_patAtHead ho hp new] at hx
          rcases List.mem_append.mp hx with h1 | h1
          · exact Or.inr h1
          · have hopos : 0 < old.length := List.length_pos.mpr ho
            have hspos : 0 < s.length := by
              have := ( List.isPrefixOf_iff_prefix.mp hp).length_le
              omega
            have hd : (s.drop old.length).length < n := by
              simp only [List.length_drop]
              omega
            rcases ih _ hd _ (le_refl _) x h1 with h2 | h2
            · exact Or.inl (List.mem_of_mem_drop h2)
            · exact Or.inr h2
        · have hp2 : old.isPrefixOf s = false := by
            cases hX : old.isPrefixOf s
            · rfl
            · exact absurd hX hp
          match s with
          | [] => rw [pyReplace_nil_s ho] at hx; simp at hx
          | d :: t =>
              rw [pyReplace_cons_noPat ho hp2 new] at hx
              rcases List.mem_cons.mp hx with h1 | h1
              · exact Or.inl (by simp [h1])
              · have ht : t.length < n := by
                  simp only [List.length_cons] at hlen
                  omega
                rcases ih _ ht t (le_refl _) x h1 with h2 | h2
                · exact Or.inl (by simp [h2])
                · exact Or.inr h2

theorem pyReplace_chars {old new s : List Char} :
    ∀ x ∈ pyReplace s old new, x ∈ s ∨ x ∈ new :=
  pyReplace_chars_aux old new s.length s (le_refl _)

theorem pyReplace_ne_nil {s old new : List Char} (hs : s ≠ [])
    (hnew : new ≠ []) : pyReplace s old new ≠ [] := by
  by_cases ho : old = []
  · rw [ho, pyReplace_nil_pat]; exact hs
  · by_cases hp : old.isPrefixOf s = true
    · rw [pyReplace_patAtHead ho hp new]
      simp [hnew]
    · have hp2 : old.isPrefixOf s = false := by
        cases hX : old.isPrefixOf s
        · rfl
        · exact absurd hX hp
      match s with
      | [] => exact absurd rfl hs
      | d :: t =>
          rw [pyReplace_cons_noPat ho hp2 new]
          simp

theorem pyReplace_head {s old new : List Char} (hne : old ≠ [])
    (hnew : new ≠ []) (x : Char)
    (hx : (pyReplace s old new).head? = some x) :
    s.head? = some x ∨ x ∈ new := by
  by_cases ho : old = []
  · exact absurd rfl (ho ▸ hne)
  · by_cases hp : old.isPrefixOf s = true
    · rw [pyReplace_patAtHead ho hp new] at hx
      match hw : new with
      | [] => exact absurd rfl (hw ▸ hnew)
      | w :: nw =>
          have : (w :: nw ++ pyReplace (s.drop old.length) old (w :: nw)).head? =
              some w := rfl
          rw [this] at hx
          right
          have hxw : w = x := by simpa using hx
          rw [← hxw]
          simp
    · have hp2 : old.isPrefixOf s = false := by
        cases hX : old.isPrefixOf s
        · rfl
        · exact absurd hX hp
      match s with
      | [] => rw [pyReplace_nil_s ho] at hx; simp at hx
      | d :: t =>
          rw [pyReplace_cons_noPat ho hp2 new] at hx
          left
          simpa using hx

theorem noBreak_pyReplace {old new b : List Char} (hb : NoBreak b)
    (hnb : NoBreak new) : NoBreak (pyReplace b old new) := by
  intro x hx
  rcases pyReplace_chars x hx with h | h
  · exact hb x h
  · exact hnb x h

theorem mem_of_break {old : List Char} (hob : NoBreak old) {c : Char}
    (hc : isLineBreak c = true) : c ∉ old := by
  intro h
  rw [hob c h] at hc
  exact Bool.noConfusion hc

theorem splitKeep_pyReplace_aux (old new : List Char) (hone : old ≠ [])
    (hob : NoBreak old) (hnb : NoBreak new) (hnn : new ≠ []) (n : Nat) :
    ∀ s : List Char, s.length ≤ n →
      splitKeep (pyReplace s old new) =
        (splitKeep s).map (fun be => (pyReplace be.1 old new, be.2)) := by
  induction n using Nat.strong_induction_on with
  | _ n ih =>
      intro s hlen
      have hsplit := List.takeWhile_append_dropWhile
        (fun c => !isLineBreak c) s
      set b := s.takeWhile (fun c => !isLineBreak c) with hbdef
      set r := s.dropWhile (fun c => !isLineBreak c) with hrdef
      have hnbb : NoBreak b := by
        intro x hx
        have := List.mem_takeWhile_imp hx
        simpa using this
      match hr : r with
      | [] =>
          have hsb : s = b := by rw [← hsplit, List.append_nil]
          rw [hsb]
          rw [splitKeep_nobreak hnbb,
            splitKeep_nobreak (noBreak_pyReplace hnbb hnb)]
          by_cases hbe : b = []
          · rw [hbe]
            simp [pyReplace_nil_s hone]
          · have h1 : b.isEmpty = false := by simp [List.isEmpty_iff, hbe]
            have h2 : (pyReplace b old new).isEmpty = false := by
              simp [List.isEmpty_iff, pyReplace_ne_nil hbe hnn]
            rw [h1, h2]
            simp
      | c :: t =>
          have hsb : s = b ++ c :: t := hsplit.symm
          have hcbreak : isLineBreak c = true := by
            have := List.head?_dropWhile_not (fun c => !isLineBreak c) s
            rw [← hrdef] at this
            simpa using this
          have hcold : c ∉ old := mem_of_break hob hcbreak
          have hlenb : b.length + (c :: t).length = s.length := by
            rw [hsb, List.length_append]
          by_cases hcr : c = '\r'
          · subst hcr
            match t with
            | [] =>
                have hrepl : pyReplace s old new =
                    pyReplace b old new ++ '\r' :: pyReplace [] old new := by
                  rw [hsb, pyReplace_split new hone hcold]
                rw [hrepl, hsb, pyReplace_nil_s hone,
                  splitKeep_cr (noBreak_pyReplace hnbb hnb) (by simp),
                  splitKeep_cr hnbb (by simp)]
                simp [splitKeep, splitKeepAux, pyReplace_nil_s hone]
            | d :: t2 =>
                by_cases hdn : d = '\n'
                · subst hdn
                  have hrepl : pyReplace s old new =
                      pyReplace b old new ++
                        '\r' :: '\n' :: pyReplace t2 old new := by
                    rw [hsb, pyReplace_split new hone hcold]
                    have hnold : '\n' ∉ old := mem_of_break hob (by decide)
                    have := pyReplace_split new hone hnold [] t2
                    rw [List.nil_append, pyReplace_nil_s hone,
                      List.nil_append] at this
                    rw [this]
                  rw [hrepl, hsb,
                    splitKeep_crlf (noBreak_pyReplace hnbb hnb),
                    splitKeep_crlf hnbb]
                  have ht2 : t2.length < n := by
                    simp only [List.length_cons] at hlenb
                    omega
                  rw [ih t2.length ht2 t2 (le_refl _)]
                  simp
                · have hrepl : pyReplace s old new =
                      pyReplace b old new ++
                        '\r' :: pyReplace (d :: t2) old new := by
                    rw [hsb, pyReplace_split new hone hcold]
                  have hhead : ∀ e : Char,
                      (pyReplace (d :: t2) old new).head? = some e →
                        e ≠ '\n' := by
                    intro e he
                    rcases pyReplace_head hone hnn e he with h1 | h1
                    · intro hcon
                      rw [hcon] at h1
                      have : d = '\n' := by simpa using h1
                      exact hdn this
                    · intro hcon
                      rw [hcon] at h1
                      have := hnb '\n' h1
                      rw [show isLineBreak '\n' = true by decide] at this
                      exact Bool.noConfusion this
                  rw [hrepl, hsb,
                    splitKeep_cr (noBreak_pyReplace hnbb hnb) hhead,
                    splitKeep_cr hnbb
                      (by intro e he
                          have : d = e := by simpa using he
                          rw [← this]
                          exact hdn)]
                  have ht2 : (d :: t2).length < n := by
                    simp only [List.length_cons] at hlenb ⊢
                    omega
                  rw [ih (d :: t2).length ht2 (d :: t2) (le_refl _)]
                  simp
          · have hrepl : pyReplace s old new =
                pyReplace b old new ++ c :: pyReplace t old new := by
              rw [hsb, pyReplace_split new hone hcold]
            rw [hrepl, hsb,
              splitKeep_break (noBreak_pyReplace hnbb hnb) hcbreak hcr,
              splitKeep_break hnbb hcbreak hcr]
            have ht : t.length < n := by
              simp only [List.length_cons] at hlenb
              omega
            rw [ih t.length ht t (le_refl _)]
            simp

/-- `splitKeep` commutes with replacement of a break-free, non-empty
pattern by a break-free, non-empty replacement: the rewrite acts on each
line body independently and every terminator is preserved. -/
theorem splitKeep_pyReplace {old new : List Char} (hone : old ≠ [])
    (hob : NoBreak old) (hnb : NoBreak new) (hnn : new ≠ [])
    (s : List Char) :
    splitKeep (pyReplace s old new) =
      (splitKeep s).map (fun be => (pyReplace be.1 old new, be.2)) :=
  splitKeep_pyReplace_aux old new hone hob hnb hnn s.length s (le_refl _)

/-! ### Claim C2: the frame of the replacement -/

/-- The per-line effect of `__replace_audio_paths`: apply, in mapping
order, the substring replacement of each replaced reference's raw line
text by the new string. -/
def lineRewrite (m : M3uFile) (d : List (AudioPath × AudioPath))
    (b : List Char) : List Char :=
  d.foldl (fun b2 kv => pyReplace b2 (targetLine m kv.1) (strAudio kv.2)) b

theorem rapLoop_content (m : M3uFile) :
    ∀ (dl : List (AudioPath × AudioPath)) (content : List Char)
      (missing : List AudioPath),
      (∀ kv ∈ dl, pyMemAudio kv.1 m.audio_paths = true) →
      (rapLoop m dl content missing).1 = lineRewrite m dl content := by
  intro dl
  induction dl with
  | nil => intro content missing _; rfl
  | cons kv rest ih =>
      intro content missing h
      match kv with
      | (o, e) =>
          have hm : pyMemAudio o m.audio_paths = true := h (o, e) (by simp)
          simp only [rapLoop, hm, if_true, lineRewrite, List.foldl_cons]
          exact ih _ missing (fun kv2 h2 => h kv2 (by simp [h2]))

theorem replace_ok_all_present {m : M3uFile}
    {d : List (AudioPath × AudioPath)} {m2 : M3uFile}
    (h : replace_audio_paths m d = .ok m2) :
    ∀ kv ∈ d, pyMemAudio kv.1 m.audio_paths = true := by
  intro kv hkv
  by_contra hcon
  have habs : pyMemAudio kv.1 m.audio_paths = false := by
    simpa using hcon
  have hne : pyMemAudio kv.1 ((rapLoop m d m.content []).2) = true := by
    rw [rapLoop_missing_mem]
    exact Or.inr ⟨kv, hkv, by simp [pyEqAudio], habs⟩
  have hienil : ((rapLoop m d m.content []).2).isEmpty = false := by
    cases hX : ((rapLoop m d m.content []).2).isEmpty
    · rfl
    · have h0 : (rapLoop m d m.content []).2 = [] := by simpa using hX
      rw [h0] at hne
      simp [pyMemAudio] at hne
  unfold replace_audio_paths at h
  rw [hienil] at h
  simp at h

theorem replace_ok_content {m : M3uFile}
    {d : List (AudioPath × AudioPath)} {m2 : M3uFile}
    (h : replace_audio_paths m d = .ok m2) :
    m2.content = lineRewrite m d m.content := by
  have hall := replace_ok_all_present h
  unfold replace_audio_paths at h
  by_cases hX : ((rapLoop m d m.content []).2).isEmpty = true
  · rw [if_pos hX] at h
    have hm2 : m2 = private_constructor ((rapLoop m d m.content []).1) := by
      exact (Except.ok.inj h).symm
    rw [hm2]
    show (rapLoop m d m.content []).1 = _
    exact rapLoop_content m d m.content [] hall
  · rw [if_neg hX] at h
    exact Except.noConfusion h

theorem audio_path_lines_length (content : List Char) :
    (private_constructor content).audio_paths.length =
      (private_constructor content).path_lines.length :=
  buildAudioPaths_length _ _

theorem targetLine_mem {content : List Char} {a : AudioPath}
    (h : pyMemAudio a (private_constructor content).audio_paths = true) :
    targetLine (private_constructor content) a ∈
      (private_constructor content).path_lines := by
  have hex : ∃ b ∈ (private_constructor content).audio_paths,
      pyEqAudio a b = true := by
    unfold pyMemAudio at h
    rw [List.any_eq_true] at h
    exact h
  have hidx : indexOfAudio a (private_constructor content).audio_paths <
      (private_constructor content).audio_paths.length := by
    unfold indexOfAudio
    exact List.findIdx_lt_length_of_exists hex
  rw [audio_path_lines_length] at hidx
  unfold targetLine
  rw [List.getD_eq_getElem _ _ hidx]
  exact List.getElem_mem _

theorem lineRewrite_no_occurrence (m : M3uFile)
    (d : List (AudioPath × AudioPath)) (b : List Char)
    (h : ∀ kv ∈ d, occursIn (targetLine m kv.1) b = false) :
    lineRewrite m d b = b := by
  induction d with
  | nil => rfl
  | cons kv rest ih =>
      unfold lineRewrite
      rw [List.foldl_cons]
      rw [pyReplace_no_occurrence (h kv (by simp))]
      exact ih (fun kv2 h2 => h kv2 (by simp [h2]))

theorem splitKeep_lineRewrite (m : M3uFile)
    (d : List (AudioPath × AudioPath))
    (hprops : ∀ kv ∈ d, targetLine m kv.1 ≠ [] ∧
      NoBreak (targetLine m kv.1) ∧ NoBreak (strAudio kv.2) ∧
      strAudio kv.2 ≠ []) :
    ∀ c : List Char, splitKeep (lineRewrite m d c) =
      (splitKeep c).map (fun be => (lineRewrite m d be.1, be.2)) := by
  induction d with
  | nil =>
      intro c
      show splitKeep c = (splitKeep c).map (fun be => (be.1, be.2))
      simp
  | cons kv rest ih =>
      intro c
      obtain ⟨ht1, ht2, ht3, ht4⟩ := hprops kv (by simp)
      have hstep : lineRewrite m (kv :: rest) c =
          lineRewrite m rest
            (pyReplace c (targetLine m kv.1) (strAudio kv.2)) := rfl
      rw [hstep,
        ih (fun kv2 h2 => hprops kv2 (by simp [h2])) _,
        splitKeep_pyReplace ht1 ht2 ht3 ht4, List.map_map]
      apply List.map_congr_left
      intro be _
      rfl

/-- C2 (amended): for a document and an accepted mapping (with
replacement strings free of line-break characters and non-empty, as
every real path string is), the output decomposes into exactly the same
lines with the same terminators, each body rewritten by substring
replacement of the raw path-line texts; consequently every line — in
particular every directive and blank line — in which no replaced raw
path-line text occurs as a substring passes through unchanged.  (A line
body that does contain such an occurrence is altered, even if it is a
directive line: see the counterexample.) -/
theorem c2_frame (content : List Char) (d : List (AudioPath × AudioPath))
    (m2 : M3uFile)
    (hok : replace_audio_paths (private_constructor content) d = .ok m2)
    (hnew : ∀ kv ∈ d, NoBreak (strAudio kv.2) ∧ strAudio kv.2 ≠ []) :
    splitKeep m2.content = (splitKeep content).map
      (fun be => (lineRewrite (private_constructor content) d be.1, be.2)) ∧
    ∀ be ∈ splitKeep content,
      (∀ kv ∈ d,
        occursIn (targetLine (private_constructor content) kv.1) be.1 =
          false) →
      lineRewrite (private_constructor content) d be.1 = be.1 := by
  have hall := replace_ok_all_present hok
  have hprops : ∀ kv ∈ d,
      targetLine (private_constructor content) kv.1 ≠ [] ∧
      NoBreak (targetLine (private_constructor content) kv.1) ∧
      NoBreak (strAudio kv.2) ∧ strAudio kv.2 ≠ [] := by
    intro kv hkv
    have hmem := targetLine_mem (hall kv hkv)
    exact ⟨path_lines_ne_nil content _ hmem,
      path_lines_nobreak content _ hmem,
      (hnew kv hkv).1, (hnew kv hkv).2⟩
  constructor
  · rw [replace_ok_content hok]
    exact splitKeep_lineRewrite (private_constructor content) d hprops
      content
  · intro be _ hocc
    exact lineRewrite_no_occurrence _ d be.1 hocc

/-- C2 counterexample content: the directive line `#/a` contains the
path line `/a` as a substring. -/
def c2content : List Char := (("#/a\n/a\n" : String).data)

/-- C2 counterexample mapping: the document's sole reference `/a`
(identity token 0) is replaced by `/b`. -/
def c2dict : List (AudioPath × AudioPath) :=
  [(⟨0, parsePath (("/a" : String).data)⟩,
    ⟨0, parsePath (("/b" : String).data)⟩)]

/-- C2 is false as stated: the accepted replacement rewrites the
directive line too — the output is `#/b\n/b\n`, so a byte outside the
path lines changed (`#/a` became `#/b`), because `str.replace` acts on
every occurrence in the whole content. -/
theorem c2_counterexample :
    ((replace_audio_paths (private_constructor c2content) c2dict).map
      (fun m => m.content)) = .ok (("#/b\n/b\n" : String).data) ∧
    (pySplitlines c2content).getD 0 [] = ("#/a" : String).data ∧
    isPathLine (("#/a" : String).data) = false ∧
    (pySplitlines (("#/b\n/b\n" : String).data)).getD 0 [] =
      ("#/b" : String).data ∧
    ("#/b" : String).data ≠ ("#/a" : String).data := by
  decide

/-- C2 witness content: a directive line that does not contain any path
line's text, plus one path line. -/
def c2wcontent : List Char := (("#EXTM3U\n/a\n" : String).data)

/-- C2 witness: applying the amended frame theorem at a concrete
document shows the rewritten document decomposes linewise with
terminators intact, and the directive line (no occurrence of `/a` in
`#EXTM3U`) passes through unchanged. -/
theorem c2_witness :
    splitKeep (private_constructor
        (("#EXTM3U\n/b\n" : String).data)).content =
      (splitKeep c2wcontent).map (fun be =>
        (lineRewrite (private_constructor c2wcontent) c2dict be.1, be.2)) ∧
    ∀ be ∈ splitKeep c2wcontent,
      (∀ kv ∈ c2dict,
        occursIn (targetLine (private_constructor c2wcontent) kv.1) be.1 =
          false) →
      lineRewrite (private_constructor c2wcontent) c2dict be.1 = be.1 :=
  c2_frame c2wcontent c2dict
    (private_constructor (("#EXTM3U\n/b\n" : String).data))
    (by decide) (by decide)

/-! ### Claim C7: parse alignment and path canonicalization -/

theorem splitOnChar_no_sep (sep : Char) :
    ∀ s : List Char, ∀ p ∈ splitOnChar sep s, sep ∉ p := by
  intro s
  induction s with
  | nil =>
      intro p hp
      have : p = [] := by simpa [splitOnChar] using hp
      rw [this]
      simp
  | cons c t ih =>
      intro p hp
      simp only [splitOnChar] at hp
      by_cases hc : (c == sep) = true
      · rw [if_pos hc] at hp
        rcases List.mem_cons.mp hp with h1 | h1
        · rw [h1]; simp
        · exact ih p h1
      · rw [if_neg hc] at hp
        have hcne : c ≠ sep := by simpa using hc
        match hr : splitOnChar sep t with
        | [] =>
            rw [hr] at hp
            have : p = [c] := by simpa using hp
            rw [this]
            simp [Ne.symm hcne]
        | h2 :: t2 =>
            rw [hr] at hp
            rcases List.mem_cons.mp hp with h1 | h1
            · rw [h1]
              intro hmem
              rcases List.mem_cons.mp hmem with h3 | h3
              · exact hcne h3.symm
              · exact ih h2 (by rw [hr]; simp) h3
            · exact ih p (by rw [hr]; simp [h1])

theorem splitOnChar_ne_nil (sep : Char) :
    ∀ s : List Char, splitOnChar sep s ≠ [] := by
  intro s
  induction s with
  | nil => simp [splitOnChar]
  | cons c t ih =>
      simp only [splitOnChar]
      by_cases hc : (c == sep) = true
      · rw [if_pos hc]; simp
      · rw [if_neg hc]
        match hr : splitOnChar sep t with
        | [] => simp
        | h2 :: t2 => simp

theorem splitOnChar_single (sep : Char) :
    ∀ p : List Char, sep ∉ p → splitOnChar sep p = [p] := by
  intro p
  induction p with
  | nil => intro _; rfl
  | cons c t ih =>
      intro h
      have hc : (c == sep) = false := by
        simp only [List.mem_cons, not_or] at h
        simp [Ne.symm h.1]
      simp only [splitOnChar, hc, Bool.false_eq_true, if_false]
      rw [ih (by simp only [List.mem_cons, not_or] at h; exact h.2)]

theorem splitOnChar_append_sep (sep : Char) :
    ∀ (p rest : List Char), sep ∉ p →
      splitOnChar sep (p ++ sep :: rest) =
        p :: splitOnChar sep rest := by
  intro p
  induction p with
  | nil =>
      intro rest _
      simp [splitOnChar]
  | cons c t ih =>
      intro rest h
      have hc : (c == sep) = false := by
        simp only [List.mem_cons, not_or] at h
        simp [Ne.symm h.1]
      show splitOnChar sep (c :: (t ++ sep :: rest)) = _
      simp only [splitOnChar, hc, Bool.false_eq_true, if_false]
      rw [ih rest (by simp only [List.mem_cons, not_or] at h; exact h.2)]

theorem splitOnChar_joinParts :
    ∀ parts : List (List Char), parts ≠ [] →
      (∀ p ∈ parts, '/' ∉ p) →
      splitOnChar '/' (joinParts parts) = parts := by
  intro parts
  induction parts with
  | nil => intro h _; exact absurd rfl h
  | cons p t ih =>
      intro _ hmem
      match t with
      | [] =>
          show splitOnChar '/' p = [p]
          exact splitOnChar_single '/' p (hmem p (by simp))
      | q :: t2 =>
          show splitOnChar '/' (p ++ '/' :: joinParts (q :: t2)) = _
          rw [splitOnChar_append_sep '/' p _ (hmem p (by simp))]
          rw [ih (by simp) (fun x hx => hmem x (by simp [hx]))]

theorem leadSlashCount_no_slash :
    ∀ l : List Char, (∀ c, l.head? = some c → c ≠ '/') →
      leadSlashCount l = 0 := by
  intro l h
  match l with
  | [] => rfl
  | c :: t =>
      have hc : c ≠ '/' := h c rfl
      rw [leadSlashCount.eq_def]
      split
      · next heq => exact absurd (List.cons.inj heq).1 hc
      · rfl

theorem joinParts_head (p : List Char) (t : List (List Char))
    (hp : p ≠ []) : (joinParts (p :: t)).head? = p.head? := by
  match t with
  | [] => rfl
  | q :: t2 =>
      show (p ++ '/' :: joinParts (q :: t2)).head? = p.head?
      match p with
      | [] => exact absurd rfl hp
      | x :: p2 => rfl

theorem parsePath_parts (s : List Char) :
    (parsePath s).parts =
      (splitOnChar '/' s).filter (fun p => !(p == []) && !(p == ['.'])) :=
  rfl

theorem parseParts_props (s : List Char) :
    ∀ p ∈ (parsePath s).parts, p ≠ [] ∧ p ≠ ['.'] ∧ '/' ∉ p := by
  intro p hp
  rw [parsePath_parts] at hp
  have h1 := List.of_mem_filter hp
  have h2 := List.mem_of_mem_filter hp
  simp only [Bool.and_eq_true, Bool.not_eq_true'] at h1
  refine ⟨by simpa using h1.1, by simpa using h1.2, ?_⟩
  exact splitOnChar_no_sep '/' s p h2

theorem rootOfCount_cases (n : Nat) :
    rootOfCount n = 0 ∨ rootOfCount n = 1 ∨ rootOfCount n = 2 := by
  unfold rootOfCount
  by_cases h0 : n = 0
  · rw [if_pos h0]; left; rfl
  · rw [if_neg h0]
    by_cases h2 : n = 2
    · rw [if_pos h2]; right; right; rfl
    · rw [if_neg h2]; right; left; rfl

theorem filter_parseParts (s : List Char) :
    ((parsePath s).parts).filter
        (fun p => !(p == []) && !(p == ['.'])) = (parsePath s).parts := by
  apply List.filter_eq_self.mpr
  intro p hp
  obtain ⟨h1, h2, _⟩ := parseParts_props s p hp
  simp [h1, h2]

/-- Re-parsing the string form of a parsed path is the identity: the
string form is in canonical spelling. -/
theorem parsePath_pathStr (P : PPath)
    (hroot : P.root = 0 ∨ P.root = 1 ∨ P.root = 2)
    (hparts : ∀ p ∈ P.parts, p ≠ [] ∧ p ≠ ['.'] ∧ '/' ∉ p) :
    parsePath (pathStr P) = P := by
  match P with
  | ⟨r, parts⟩ =>
      match parts with
      | [] =>
          rcases hroot with h | h | h <;> rw [show r = _ from h] <;> decide
      | p :: t =>
          obtain ⟨hpne, _, hpns⟩ := hparts p (by simp)
          have hjoinhead : ∀ c, (joinParts (p :: t)).head? = some c →
              c ≠ '/' := by
            intro c hc
            rw [joinParts_head p t hpne] at hc
            intro hcon
            rw [hcon] at hc
            match p with
            | x :: p2 =>
                have : x = '/' := by simpa using hc
                exact hpns (List.mem_cons.mpr (Or.inl this.symm))
          have hlead0 : leadSlashCount (joinParts (p :: t)) = 0 :=
            leadSlashCount_no_slash _ hjoinhead
          have hsplit : splitOnChar '/' (joinParts (p :: t)) = p :: t :=
            splitOnChar_joinParts _ (by simp)
              (fun q hq => (hparts q hq).2.2)
          have hfilter : (p :: t).filter
              (fun q => !(q == []) && !(q == ['.'])) = p :: t := by
            apply List.filter_eq_self.mpr
            intro q hq
            obtain ⟨h1, h2, _⟩ := hparts q hq
            simp [h1, h2]
          have hstr : pathStr ⟨r, p :: t⟩ =
              rootText r ++ joinParts (p :: t) := by
            unfold pathStr
            simp
          rcases hroot with h | h | h
          · rw [show r = _ from h] at hstr ⊢
            rw [hstr]
            show PPath.mk _ _ = _
            rw [show rootText 0 = [] from rfl, List.nil_append]
            rw [hlead0, hsplit]
            rw [show rootOfCount 0 = 0 from rfl, hfilter]
          · rw [show r = _ from h] at hstr ⊢
            rw [hstr]
            show PPath.mk _ _ = _
            rw [show rootText 1 = ['/'] from rfl]
            have hl : leadSlashCount ('/' :: joinParts (p :: t)) = 1 := by
              show leadSlashCount (joinParts (p :: t)) + 1 = 1
              rw [hlead0]
            have hsp : splitOnChar '/' ('/' :: joinParts (p :: t)) =
                [] :: p :: t := by
              simp [splitOnChar, hsplit]
            rw [List.singleton_append, hl, hsp]
            show PPath.mk 1 (List.filter _ ([] :: p :: t)) = _
            rw [List.filter_cons_of_neg (by simp), hfilter]
          · rw [show r = _ from h] at hstr ⊢
            rw [hstr]
            have hform : rootText 2 ++ joinParts (p :: t) =
                '/' :: '/' :: joinParts (p :: t) := rfl
            rw [hform]
            have hl : leadSlashCount
                ('/' :: '/' :: joinParts (p :: t)) = 2 := by
              show leadSlashCount (joinParts (p :: t)) + 1 + 1 = 2
              rw [hlead0]
            have hsp : splitOnChar '/' ('/' :: '/' :: joinParts (p :: t)) =
                [] :: [] :: p :: t := by
              simp [splitOnChar, hsplit]
            show PPath.mk (rootOfCount (leadSlashCount
              ('/' :: '/' :: joinParts (p :: t)))) _ = _
            rw [hl, hsp]
            show PPath.mk 2 (List.filter _ ([] :: [] :: p :: t)) = _
            rw [List.filter_cons_of_neg (by simp),
              List.filter_cons_of_neg (by simp), hfilter]

theorem parse_pathStr_parse (s0 : List Char) :
    parsePath (pathStr (parsePath s0)) = parsePath s0 :=
  parsePath_pathStr (parsePath s0)
    (by show rootOfCount _ = 0 ∨ _; exact rootOfCount_cases _)
    (parseParts_props s0)

theorem isPathLine_iff (l : List Char) :
    isPathLine l = (!(l == ([] : List Char)) && !(l.head? == some '#')) := by
  match l with
  | [] => rfl
  | c :: t =>
      show (!([c] == ([] : List Char)) && !([c] == ['#'])) = _
      simp

/-- C7 (amended): a parsed document retains exactly one raw path line
per parsed reference (a line is a path line iff it is non-empty and its
first character is not `#`), and the i-th reference's string form equals
the trimmed, Unicode-normalized i-th raw line whenever that trimmed,
normalized text is in canonical path spelling (i.e. is the string form
of some parsed path); in general it is the pathlib canonicalization of
that text, which may drop duplicate separators, `.` components and
trailing separators. -/
theorem c7_parse_alignment (content : List Char) :
    (private_constructor content).path_lines.length =
      (private_constructor content).audio_paths.length ∧
    (private_constructor content).path_lines =
      (pySplitlines content).filter
        (fun l => !(l == ([] : List Char)) && !(l.head? == some '#')) ∧
    ∀ (i : Nat) (s0 : List Char),
      i < (private_constructor content).path_lines.length →
      replace_combining_chars_to_precomposed
          (pyStrip ((private_constructor content).path_lines.getD i [])) =
        pathStr (parsePath s0) →
      strAudio ((private_constructor content).audio_paths.getD i default) =
        replace_combining_chars_to_precomposed
          (pyStrip ((private_constructor content).path_lines.getD i [])) := by
  refine ⟨(audio_path_lines_length content).symm, ?_, ?_⟩
  · show (pySplitlines content).filter isPathLine = _
    apply List.filter_congr
    intro l _
    exact isPathLine_iff l
  · intro i s0 hi heq
    have hgetd : (private_constructor content).audio_paths.getD i default =
        ⟨0 + i, parsePath (replace_combining_chars_to_precomposed
          (pyStrip ((private_constructor content).path_lines.getD i [])))⟩ := by
      show (buildAudioPaths 0
          ((pySplitlines content).filter isPathLine)).getD i default = _
      exact buildAudioPaths_getD _ 0 i hi
    rw [hgetd]
    show pathStr (parsePath (replace_combining_chars_to_precomposed
      (pyStrip ((private_constructor content).path_lines.getD i [])))) = _
    rw [heq, parse_pathStr_parse]

/-- C7 counterexample content: the raw line `a//b` is not in canonical
path spelling. -/
def c7content : List Char := (("a//b\n" : String).data)

/-- C7 is false as stated: the raw line `a//b`, trimmed and normalized,
is still `a//b`, but the parsed reference's string form is pathlib's
canonical `a/b` — they differ. -/
theorem c7_counterexample :
    (private_constructor c7content).path_lines.getD 0 [] =
      ("a//b" : String).data ∧
    replace_combining_chars_to_precomposed
        (pyStrip (("a//b" : String).data)) = ("a//b" : String).data ∧
    strAudio ((private_constructor c7content).audio_paths.getD 0 default) =
      ("a/b" : String).data ∧
    ("a/b" : String).data ≠ ("a//b" : String).data := by
  decide

/-- C7 witness content: one directive line and one canonical path
line. -/
def c7wcontent : List Char := (("#EXTM3U\n/a/b\n" : String).data)

/-- C7 witness: for the canonical raw line `/a/b`, the parsed
reference's string form is exactly the trimmed, normalized raw line. -/
theorem c7_witness :
    strAudio ((private_constructor c7wcontent).audio_paths.getD 0 default) =
      replace_combining_chars_to_precomposed
        (pyStrip ((private_constructor c7wcontent).path_lines.getD 0 [])) :=
  (c7_parse_alignment c7wcontent).2.2 0 (("/a/b" : String).data)
    (by decide) (by decide)

end M3U
